import Mathlib

/-!
Shallow embedding of the block-based re-ranking engine of konflux-ci/prioritize.

Sources embedded (from `src/`):
  * `src/rules/team/rank.py`                — parent-affinity re-ranking (`Rank` namespace)
  * `src/rules/team/timesensitive_rank.py`  — due-date-urgency re-ranking (`TS` namespace)
  * `src/rules/team/fixversion_rank.py`     — fix-version re-ranking (`FV` namespace)
  * `src/rules/team/priority_from_rank.py`  — percentile priority tiers (`PFR` namespace)

Conventions of the embedding:
  * Jira issues are immutable snapshots; the mutable python objects are modelled as
    values.  Python `==` on issue objects is object identity; distinct issues carry
    distinct keys, so structural equality on the `Issue` value stands in for it.
  * Dates (`"YYYY-MM-DD"` strings in the code, compared lexicographically, which for
    ISO dates agrees with chronological order) are modelled as `Nat` day numbers with
    day 0 = today; the `today + timedelta(days=30*3)` deadline becomes the constant 90.
  * Rank field values (ints in the repo's test fixtures) are modelled as `Int`.
    `float("-inf")` used by special blocks is `⊥` in `WithBot Int`.
  * Python `None` becomes `Option.none`.
-/

/-- A parent issue as it appears in `raw["Context"]["Related Issues"]["Parent"]`.
The engine only ever reads a parent's identity (python `==` on the object),
`fields.project.key`, its rank field and `fields.status.statusCategory.name`;
in the repo's fixtures (`tests/conftest.py`) parent issues are themselves issues
with no parent, due date, fix versions, labels or components of their own. -/
structure ParentIssue where
  key : String
  project : String
  rank : Int
  status : String
deriving DecidableEq, Repr

/-- An issue snapshot.  `parent` is the `raw["Context"]["Related Issues"]["Parent"]`
issue (`None` for orphans); `duedate` is the due-date field and `fixVersions` the
list of fix versions, each carrying its optional `releaseDate`. -/
structure Issue where
  key : String
  project : String
  parent : Option ParentIssue
  rank : Int
  duedate : Option Nat
  status : String
  fixVersions : List (Option Nat)
  labels : List String
  components : List String
deriving DecidableEq, Repr

/-- The parent issue object viewed as a member of a flat issue list, which is how
`rank.py`'s `get_issues` emits it (and how the fixtures present parent issues:
no parent, due date, fix versions, labels or components of their own). -/
def ParentIssue.asIssue (p : ParentIssue) : Issue :=
  ⟨p.key, p.project, none, p.rank, none, p.status, [], [], []⟩

/-!  ## Generic insertion used throughout the source

Both `_sort_by_project_rank` variants insert a block into a per-project list just
before the first element with a strictly greater key (`if block_rank < ...:
project_ranking.insert(index, block); break` / `if block not in ...: append`),
and python's stable `sorted(key=...)` is extensionally the left fold of the same
insertion.  `lt x y` is the strict comparison "key of x < key of y".  -/

def insertBy (lt : α → α → Bool) (x : α) : List α → List α
  | [] => [x]
  | y :: ys => if lt x y then x :: y :: ys else y :: insertBy lt x ys

def sortBy' (lt : α → α → Bool) (l : List α) : List α :=
  l.foldl (fun acc x => insertBy lt x acc) []

/-! ## `src/rules/team/rank.py` — parent-affinity re-ranking -/

namespace Rank

/-- `rank.py`'s `Block`: a parent (or `None`) and the child issues appended to it. -/
structure Block where
  parent_issue : Option ParentIssue
  issues : List Issue
deriving DecidableEq, Repr

/-- The project a block's slot belongs to: the parent's project, `none` for
parentless blocks (`block.parent_issue.fields.project.key` / `None`). -/
def Block.project (b : Block) : Option String :=
  b.parent_issue.map ParentIssue.project

/-- The rank the block sorter reads off a block:
`getattr(parent_issue.fields, rank_field_id)`.  Only ever evaluated on blocks
that have a parent; `0` is a placeholder for the `AttributeError` python would
raise on a parentless block. -/
def Block.rank (b : Block) : Int :=
  match b.parent_issue with
  | some p => p.rank
  | none => 0

/-- Strict comparison used by `_sort_by_project_rank`'s insertion:
`block_rank < getattr(i_block.parent_issue.fields, rank_field_id)`. -/
def blockLt (b c : Block) : Bool :=
  b.rank < c.rank

/-- `Blocks.add_issue`, parent case: walk the blocks, append the issue to the
first block with the same parent (`block.parent_issue == parent_issue`), and
append a fresh block at the end if none matches. -/
def add_to_parent_block (p : ParentIssue) (i : Issue) : List Block → List Block
  | [] => [⟨some p, [i]⟩]
  | b :: bs =>
    if b.parent_issue = some p then { b with issues := b.issues ++ [i] } :: bs
    else b :: add_to_parent_block p i bs

/-- `Blocks.add_issue`: an issue without a parent always opens a fresh block;
an issue with a parent joins the first block of the same parent. -/
def add_issue (bs : List Block) (i : Issue) : List Block :=
  match i.parent with
  | none => bs ++ [⟨none, [i]⟩]
  | some p => add_to_parent_block p i bs

/-- `Blocks.__init__`: fold `add_issue` over the input issues. -/
def buildBlocks (issues : List Issue) : List Block :=
  issues.foldl add_issue []

/-- `Blocks.get_issues`: flatten the blocks; a block whose parent's project
equals the project of its first issue additionally emits the parent itself
first.  (`block.issues[0]` would raise on an empty block; blocks produced by
`add_issue` are never empty, and `head?` returning `none` suppresses the
parent exactly where python would crash.) -/
def get_issues (bs : List Block) : List Issue :=
  bs.flatMap fun b =>
    (match b.parent_issue, b.issues.head? with
      | some p, some i0 => if p.project = i0.project then [p.asIssue] else []
      | _, _ => []) ++ b.issues

/-- First phase of `_sort_by_project_rank`: the per-project ranked lists
(`per_project_ranking`, a dict keyed by project, starting as `{None: []}`).
A parentless block is appended to the `None` list; a parented block is
insertion-sorted into its parent project's list by the parent's rank. -/
def build_ranking (m : Option String → List Block) : List Block → (Option String → List Block)
  | [] => m
  | b :: bs =>
    match b.parent_issue with
    | none =>
      build_ranking (fun q => if q = none then m none ++ [b] else m q) bs
    | some p =>
      build_ranking
        (fun q => if q = some p.project then insertBy blockLt b (m (some p.project)) else m q) bs

/-- Second phase of `_sort_by_project_rank`: walk the original block slots and
pop the head of the slot project's ranked list (`per_project_ranking[project].pop(0)`).
Popping an empty list would raise `IndexError` in python; it cannot happen when
the queues come from `build_ranking` over the same blocks, and the model returns
the slots produced so far in that unreachable case. -/
def rethread (m : Option String → List Block) : List Block → List Block
  | [] => []
  | b :: bs =>
    match m b.project with
    | [] => []
    | q :: _ =>
      q :: rethread (fun pk => if pk = b.project then (m pk).tail else m pk) bs

/-- `Blocks._sort_by_project_rank`. -/
def sort_by_project_rank (bs : List Block) : List Block :=
  rethread (build_ranking (fun _ => []) bs) bs

/-- `Block.parent_is_inprogress`. -/
def Block.parent_is_inprogress (b : Block) : Bool :=
  match b.parent_issue with
  | none => false
  | some p => p.status = "In Progress"

/-- `Blocks._sort_by_status`: stable partition, in-progress parents first. -/
def sort_by_status (bs : List Block) : List Block :=
  bs.filter Block.parent_is_inprogress ++ bs.filter (fun b => !b.parent_is_inprogress)

/-- `Blocks.sort(favor_status)`. -/
def sort (favorStatus : Bool) (bs : List Block) : List Block :=
  let b1 := sort_by_project_rank bs
  if favorStatus then sort_by_status b1 else b1

end Rank

namespace Rank

/-- The per-project ranked lists as built by the first phase of
`_sort_by_project_rank` starting from `{None: []}` (every queue starts empty). -/
def queues (bs : List Block) : Option String → List Block :=
  build_ranking (fun _ => []) bs

end Rank

/-! ## `_set_rank` — the diff/move emitter (identical loop in `rank.py`,
`timesensitive_rank.py` and `fixversion_rank.py`)

The loop walks `new_ranking` by index against `old_ranking`; a sticky `rerank`
flag turns on at the first index where they differ, and from then on every
issue with a predecessor is moved directly after that predecessor
(`jira_client.rank(issue=issue.key, prev_issue=previous_issue.key)`).
A move is the pair `(issue, prev_issue)`.  Indexing `old_ranking[index]` with
`new_ranking` longer than `old_ranking` would raise `IndexError`; the model
stops there (unreachable when the two rankings are permutations). -/

def set_rank_go : Option Issue → Bool → List Issue → List Issue → List (Issue × Issue)
  | prev, rerank, o :: os, n :: ns =>
    let rerank' := if n ≠ o then true else rerank
    (match prev, rerank' with
      | some p, true => [(n, p)]
      | _, _ => []) ++ set_rank_go (some n) rerank' os ns
  | _, _, _, _ => []

/-- `_set_rank(old_ranking, new_ranking)` as the list of emitted move operations,
in emission order (`previous_issue` starts as `None`, `rerank` as `False`). -/
def set_rank (oldR newR : List Issue) : List (Issue × Issue) :=
  set_rank_go none false oldR newR

/-- The 0-based index of the first position where the two rankings differ
(`none` when the walk finds no difference). -/
def firstDiff : List Issue → List Issue → Option Nat
  | o :: os, n :: ns => if n = o then (firstDiff os ns).map (· + 1) else some 0
  | _, _ => none

/-- The chain of moves hanging off an anchor: move each successive issue
directly after its predecessor. -/
def movesFor (a : Issue) : List Issue → List (Issue × Issue)
  | [] => []
  | i :: its => (i, a) :: movesFor i its

/-- Insert `it` directly after the first occurrence of `a` (no occurrence:
nothing to anchor on, the list is returned less the item — unreachable for the
moves the emitter produces). -/
def insertAfter : List Issue → Issue → Issue → List Issue
  | [], _, _ => []
  | x :: xs, a, it => if x = a then x :: it :: xs else x :: insertAfter xs a it

/-- Modelled from the spec: the external move sink is not part of this
repository (`jira_client.rank` is the tracker client).  Per the spec (§3), a
move operation `(itemKey, afterKey)` means "place itemKey immediately after
afterKey in the external ranked list". -/
def applyMove (l : List Issue) (mv : Issue × Issue) : List Issue :=
  insertAfter (l.erase mv.1) mv.2 mv.1

/-! ## `src/rules/team/timesensitive_rank.py` — due-date-urgency re-ranking -/

namespace TS

/-- A block of `timesensitive_rank.py`: `ts` is true exactly for the single
`TimeSensitiveBlock` created in `Blocks.__init__` (python distinguishes it by
`type(block) is TimeSensitiveBlock`). -/
structure Block where
  ts : Bool
  parent_issue : Option ParentIssue
  issues : List Issue
deriving DecidableEq, Repr

/-- `TimeSensitiveBlock._claims`: the due date exists and is strictly below
`today + timedelta(days=30 * 3)` (day 90 in the day-number model). -/
def timesensitive_claims (i : Issue) : Bool :=
  match i.duedate with
  | some d => decide (d < 90)
  | none => false

/-- `Block.claims` / `TimeSensitiveBlock.claims` dispatch. -/
def Block.claims (b : Block) (i : Issue) : Bool :=
  if b.ts then timesensitive_claims i else decide (b.parent_issue = i.parent)

def Block.project (b : Block) : Option String :=
  b.parent_issue.map ParentIssue.project

/-- `Block.rank` / `TimeSensitiveBlock.rank`: `float("-inf")` for the
time-sensitive block (`⊥` in `WithBot Int`), the parent's rank for a parented
block, and `None` for a parentless plain block (python falls off the end of
the property and returns `None`). -/
def Block.rank (b : Block) : Option (WithBot Int) :=
  if b.ts then some ⊥ else b.parent_issue.map (fun p => (p.rank : WithBot Int))

/-- `block.rank < i_block.rank` in `_sort_by_project_rank`'s insertion.  Both
sides carry an actual rank wherever python evaluates the comparison (comparing
with `None` would raise `TypeError`); `false` on a `none` side is an arbitrary
value for those unreachable comparisons. -/
def blockLtT (b c : Block) : Bool :=
  match b.rank, c.rank with
  | some x, some y => decide (x < y)
  | _, _ => false

def Block.parent_is_inprogress (b : Block) : Bool :=
  if b.ts then false
  else
    match b.parent_issue with
    | none => false
    | some p => decide (p.status = "In Progress")

/-- Sort key of `TimeSensitiveBlock.yield_issues` (`duedate(issue)`); every
issue in the time-sensitive block has a due date (its claim requires one), so
the `getD 0` default is never the deciding value there. -/
def duedateKey (i : Issue) : Nat :=
  i.duedate.getD 0

/-- The strict comparison python's stable `sorted(self.issues, key=duedate)`
orders by. -/
def dueLt (i j : Issue) : Bool :=
  decide (duedateKey i < duedateKey j)

/-- `Block.yield_issues` / `TimeSensitiveBlock.yield_issues` (the latter
returns early on an empty block, else yields the issues sorted by due date). -/
def Block.yield_issues (b : Block) : List Issue :=
  if b.ts then
    match b.issues with
    | [] => []
    | _ => sortBy' dueLt b.issues
  else b.issues

/-- `Blocks.add_issue`: append the issue to the first block that claims it,
else open a fresh plain block for its parent at the end. -/
def add_issue : List Block → Issue → List Block
  | [], i => [⟨false, i.parent, [i]⟩]
  | b :: bs, i =>
    if b.claims i then { b with issues := b.issues ++ [i] } :: bs
    else b :: add_issue bs i

/-- `Blocks.__init__`: blocks start as `[TimeSensitiveBlock(None)]`. -/
def buildBlocks (issues : List Issue) : List Block :=
  issues.foldl add_issue [⟨true, none, []⟩]

/-- `Blocks.get_issues`. -/
def get_issues (bs : List Block) : List Issue :=
  bs.flatMap Block.yield_issues

/-- First phase of this file's `_sort_by_project_rank`: blocks whose rank is
`None` are appended to the `None` list; every other block (including the
time-sensitive block, whose rank is `-inf`) is insertion-sorted into its
project's list. -/
def build_ranking (m : Option String → List Block) : List Block → (Option String → List Block)
  | [] => m
  | b :: bs =>
    match b.rank with
    | none => build_ranking (fun q => if q = none then m none ++ [b] else m q) bs
    | some _ =>
      build_ranking (fun q => if q = b.project then insertBy blockLtT b (m b.project) else m q) bs

/-- Second phase: pop each original slot's project queue (same loop as in
`rank.py`). -/
def rethread (m : Option String → List Block) : List Block → List Block
  | [] => []
  | b :: bs =>
    match m b.project with
    | [] => []
    | q :: _ =>
      q :: rethread (fun pk => if pk = b.project then (m pk).tail else m pk) bs

def queues (bs : List Block) : Option String → List Block :=
  build_ranking (fun _ => []) bs

/-- `Blocks._sort_by_project_rank`. -/
def sort_by_project_rank (bs : List Block) : List Block :=
  rethread (queues bs) bs

/-- `Blocks._sort_by_status`. -/
def sort_by_status (bs : List Block) : List Block :=
  bs.filter Block.parent_is_inprogress ++ bs.filter (fun b => !b.parent_is_inprogress)

/-- `Blocks._deprioritize_orphans`. -/
def deprioritize_orphans (bs : List Block) : List Block :=
  bs.filter (fun b => !(decide (b.parent_issue = none)))
    ++ bs.filter (fun b => decide (b.parent_issue = none))

/-- `Blocks._prioritize_timesensitive_block`. -/
def prioritize_timesensitive_block (bs : List Block) : List Block :=
  bs.filter (fun b => b.ts) ++ bs.filter (fun b => !b.ts)

/-- `Blocks.sort`: the four phases in source order. -/
def sort (bs : List Block) : List Block :=
  prioritize_timesensitive_block (deprioritize_orphans (sort_by_status (sort_by_project_rank bs)))

/-- The whole pipeline `Blocks(issues); blocks.sort(); blocks.get_issues()`. -/
def pipeline (issues : List Issue) : List Issue :=
  get_issues (sort (buildBlocks issues))

end TS

/-! ## `src/rules/team/fixversion_rank.py` — fix-version re-ranking -/

namespace FV

/-- A block of `fixversion_rank.py`: `fv` is true exactly for the single
`FixVersionBlock`. -/
structure Block where
  fv : Bool
  issues : List Issue
deriving DecidableEq, Repr

/-- `FixVersionBlock._earliest_fixversion_date`: `None` when there are no fix
versions or none carries a release date, else the smallest release date
(`sorted(dates)[0]`). -/
def earliest_fixversion_date (i : Issue) : Option Nat :=
  match i.fixVersions with
  | [] => none
  | _ =>
    match i.fixVersions.filterMap id with
    | [] => none
    | d :: ds => some (ds.foldl min d)

/-- `FixVersionBlock._claims`: an earliest release date exists and is strictly
below `today + timedelta(days=30 * 3)`. -/
def fixversion_claims (i : Issue) : Bool :=
  match earliest_fixversion_date i with
  | some d => decide (d < 90)
  | none => false

/-- `Block.claims` / `FixVersionBlock.claims`: the plain block claims exactly
what the fix-version block does not. -/
def Block.claims (b : Block) (i : Issue) : Bool :=
  if b.fv then fixversion_claims i else !fixversion_claims i

/-- Sentinel used by `FixVersionBlock.yield_issues` for issues with no due date
(`getattr(...) or "9999-99-99"`, lexicographically above every real date). -/
def fvSentinel : Nat := 99999999

/-- `Block.yield_issues` / `FixVersionBlock.yield_issues`.  The fix-version
override reads `self.issues[0]` before anything else, so on an empty block it
raises `IndexError`: that failure is the `none` value. -/
def Block.yield_issues (b : Block) : Option (List Issue) :=
  if b.fv then
    match b.issues with
    | [] => none
    | _ =>
      some (sortBy' (fun i j => decide (i.duedate.getD fvSentinel < j.duedate.getD fvSentinel))
        b.issues)
  else some b.issues

/-- `Blocks.add_issue` (same first-claiming-block loop as the time-sensitive
variant; a fresh plain block carries no parent). -/
def add_issue : List Block → Issue → List Block
  | [], i => [⟨false, [i]⟩]
  | b :: bs, i =>
    if b.claims i then { b with issues := b.issues ++ [i] } :: bs
    else b :: add_issue bs i

/-- `Blocks.__init__`: blocks start as `[FixVersionBlock()]`. -/
def buildBlocks (issues : List Issue) : List Block :=
  issues.foldl add_issue [⟨true, []⟩]

/-- `Blocks.get_issues`: flatten the yielded blocks, propagating the
`IndexError` of an empty fix-version block. -/
def get_issues (bs : List Block) : Option (List Issue) :=
  match bs with
  | [] => some []
  | b :: rest =>
    match b.yield_issues, get_issues rest with
    | some l, some r => some (l ++ r)
    | _, _ => none

/-- `Blocks._prioritize_fixversion_block` (the only phase of `Blocks.sort`). -/
def sort (bs : List Block) : List Block :=
  bs.filter (fun b => b.fv) ++ bs.filter (fun b => !b.fv)

/-- The whole pipeline `Blocks(issues); blocks.sort(); blocks.get_issues()`,
`none` when it raises. -/
def pipeline (issues : List Issue) : Option (List Issue) :=
  get_issues (sort (buildBlocks issues))

end FV

/-! ## `src/rules/team/priority_from_rank.py` — percentile priority tiers -/

namespace PFR

/-- A fixed block of `priority_from_rank.py`: a priority name and a percentile
threshold.  Thresholds are exact binary fractions, so the float arithmetic
`i / n <= threshold` is modelled exactly by rational arithmetic (the two agree
for every list a python process can hold). -/
structure Block where
  priority : String
  threshold : ℚ
  issues : List Issue
deriving DecidableEq

/-- The percentile test of `Block.claims(issue, issues)` for a threshold `t`:
empty input claims nothing, else the item's percentile
`issues.index(issue) / len(issues)` is at or below the threshold.
(`issues.index` raises on an absent issue; `indexOf` then returns the length,
but `add_issue` is only ever called with `issue in issues`.) -/
def pclaim (issues : List Issue) (t : ℚ) (i : Issue) : Bool :=
  if issues = [] then false
  else decide ((issues.indexOf i : ℚ) / (issues.length : ℚ) ≤ t)

/-- `Block.claims(issue, issues)`. -/
def Block.claims (b : Block) (i : Issue) (issues : List Issue) : Bool :=
  pclaim issues b.threshold i

/-- `Blocks.add_issue`: the for/else loop — first claiming block wins, the
`else` branch raises `RuntimeError("No block claims issue ...")`. -/
def add_issue (bs : List Block) (i : Issue) (issues : List Issue) :
    Except String (List Block) :=
  match bs with
  | [] => .error "No block claims issue"
  | b :: rest =>
    if b.claims i issues then .ok ({ b with issues := b.issues ++ [i] } :: rest)
    else (add_issue rest i issues).map (b :: ·)

/-- The four fixed blocks of `Blocks.__init__` (no blockers). -/
def initBlocks : List Block :=
  [⟨"Critical", 0.0625, []⟩, ⟨"Major", 0.125, []⟩, ⟨"Normal", 0.25, []⟩, ⟨"Minor", 1, []⟩]

/-- `Blocks.__init__`: every issue is added against the full input list. -/
def buildBlocks (issues : List Issue) : Except String (List Block) :=
  issues.foldlM (fun bs i => add_issue bs i issues) initBlocks

/-- The priority `check_priority_from_rank` assigns to an issue: the priority
of the block holding it (`none` if construction raised or no block holds it). -/
def assigned_priority (issues : List Issue) (i : Issue) : Option String :=
  match buildBlocks issues with
  | .ok bs => (bs.find? (fun b => decide (i ∈ b.issues))).map Block.priority
  | .error _ => none

end PFR

/-! ## Manual-override variant of the time-sensitive partitioner -/

namespace MO

/-- Modelled from the spec: the `manual_override` variant of the time-sensitive
partitioner (`Blocks(issues, manual_override=...)`, with its due-date block,
inert block and tail score block) is not under `src/` — only
`tests/test_timesensitive_rank.py` exercises it.  Per the spec (§4.1), the
due-date-urgency policy has three blocks — due-soon (due date within a
configurable horizon), inert (everything else), and a tail block for the
bottom third by input position — the override predicate is evaluated per item
against key/labels/components, precedes due-date claiming, and "removes an
item from urgency-based claiming regardless of its due date, forcing it into
the inert block". -/
inductive BlockKind where
  | due
  | inert
  | rice
deriving DecidableEq, Repr

/-- Modelled from the spec: due date present and within the urgency horizon of
`h` days. -/
def urgent (h : Nat) (i : Issue) : Bool :=
  match i.duedate with
  | some d => decide (d < h)
  | none => false

/-- Modelled from the spec: which block claims the item at 0-based input
position `idx` of `n` items — override forces inert, else due-date urgency,
else the bottom third by input position goes to the tail score block, else the
inert catch-all. -/
def classify (ov : Issue → Bool) (h : Nat) (n idx : Nat) (i : Issue) : BlockKind :=
  if ov i then .inert
  else if urgent h i then .due
  else if 3 * idx ≥ 2 * n then .rice
  else .inert

/-- Modelled from the spec: the members of one block kind, in input order. -/
def blockOf (ov : Issue → Bool) (h : Nat) (issues : List Issue) (k : BlockKind) : List Issue :=
  (issues.enum.filter (fun pr => decide (classify ov h issues.length pr.1 pr.2 = k))).map
    Prod.snd

end MO

/-! ## Concrete inputs: the `tests/conftest.py` fixture and small examples -/

/-- `tests/conftest.py` fixture parents (mock status is not "In Progress");
`parent3`'s rank is already set to 0 as in `test_rank_single_move`. -/
def fxParent1 : ParentIssue := ⟨"parent1", "TESTPROJECT", 1, "New"⟩

def fxParent2 : ParentIssue := ⟨"parent2", "TESTPROJECT", 3, "New"⟩

def fxParent3 : ParentIssue := ⟨"parent3", "TESTPROJECT", 0, "New"⟩

def fxChild0 : Issue := ⟨"child0", "TESTPROJECT", none, 0, none, "New", [], [], []⟩

def fxChild1 : Issue := ⟨"child1", "TESTPROJECT", some fxParent1, 2, none, "New", [], [], []⟩

def fxChild2 : Issue := ⟨"child2", "TESTPROJECT", some fxParent2, 4, none, "New", [], [], []⟩

def fxChild3 : Issue := ⟨"child3", "TESTPROJECT", some fxParent3, 6, none, "New", [], [], []⟩

def fxChild4 : Issue := ⟨"child4", "TESTPROJECT", none, 7, none, "New", [], [], []⟩

/-- `list(issues.values())` of the fixture, in insertion order. -/
def fxIssues : List Issue := [fxChild0, fxChild1, fxChild2, fxChild3, fxChild4]

/-- A parent sharing its child's project, for the parent-emission examples. -/
def cxParent : ParentIssue := ⟨"p", "A", 5, "New"⟩

def cxChild : Issue := ⟨"c", "A", some cxParent, 1, none, "New", [], [], []⟩

/-- Two plain issues for the move-emitter examples. -/
def exIssueA : Issue := ⟨"a", "T", none, 1, none, "New", [], [], []⟩

def exIssueB : Issue := ⟨"b", "T", none, 2, none, "New", [], [], []⟩

/-- Blocks over two projects for the project-swap example: same blocks twice,
with the ranks of project "P"'s parents swapped between the two lists. -/
def wBlocksA : List Rank.Block :=
  [⟨some ⟨"p1", "P", 1, "New"⟩, []⟩, ⟨some ⟨"q1", "Q", 5, "New"⟩, []⟩,
    ⟨some ⟨"p2", "P", 2, "New"⟩, []⟩]

def wBlocksB : List Rank.Block :=
  [⟨some ⟨"p1", "P", 2, "New"⟩, []⟩, ⟨some ⟨"q1", "Q", 5, "New"⟩, []⟩,
    ⟨some ⟨"p2", "P", 1, "New"⟩, []⟩]

/-- Issues for the due-date-urgency example: due in 30 days, due in 60 days,
no due date, ranked against each other in reverse. -/
def duIssue30 : Issue := ⟨"d30", "T", none, 9, some 30, "New", [], [], []⟩

def duIssue60 : Issue := ⟨"d60", "T", none, 5, some 60, "New", [], [], []⟩

def duIssueNone : Issue := ⟨"dnone", "T", none, 1, none, "New", [], [], []⟩

/-- The KONFLUX-3420 regression input: a due date within the horizon and a
component matched by the override. -/
def moIssue : Issue :=
  ⟨"KONFLUX-3420", "KONFLUX", none, 1, some 60, "New", [], [], ["RPM Build"]⟩


/-- The parent issues `Rank.get_issues` emits in addition to the blocks'
contents: one per block whose parent's project equals its first issue's
project, in block order. -/
def Rank.parent_emissions (bs : List Rank.Block) : List Issue :=
  bs.flatMap fun b =>
    match b.parent_issue, b.issues.head? with
    | some p, some i0 => if p.project = i0.project then [p.asIssue] else []
    | _, _ => []


/-- Ten distinct rank-ordered issues, for the 10-item percentile example. -/
def tenIssues : List Issue :=
  (List.range 10).map (fun j => ⟨toString j, "T", none, j, none, "New", [], [], []⟩)

-- THEOREMS-MARKER
theorem insertBy_perm (lt : α → α → Bool) (x : α) (l : List α) :
    List.Perm (insertBy lt x l) (x :: l) := by
  induction l with
  | nil => simp [insertBy]
  | cons y ys ih =>
    simp only [insertBy]
    split
    · exact List.Perm.refl _
    · exact ((ih.cons y).trans (List.Perm.swap x y ys))

theorem sortBy'_perm (lt : α → α → Bool) (l : List α) :
    List.Perm (sortBy' lt l) l := by
  suffices h : ∀ (l acc : List α),
      List.Perm (l.foldl (fun acc x => insertBy lt x acc) acc) (acc ++ l) by
    simpa using h l []
  intro l
  induction l with
  | nil => intro acc; simp
  | cons x xs ih =>
    intro acc
    have h1 : List.Perm (xs.foldl (fun acc x => insertBy lt x acc) (insertBy lt x acc))
        (insertBy lt x acc ++ xs) := ih _
    have h2 : List.Perm (insertBy lt x acc ++ xs) ((x :: acc) ++ xs) :=
      (insertBy_perm lt x acc).append_right xs
    have h3 : List.Perm ((x :: acc) ++ xs) (acc ++ x :: xs) := List.perm_middle.symm
    exact (h1.trans h2).trans h3

theorem insertBy_length (lt : α → α → Bool) (x : α) (l : List α) :
    (insertBy lt x l).length = l.length + 1 :=
  (insertBy_perm lt x l).length_eq

theorem mem_insertBy (lt : α → α → Bool) (x : α) (l : List α) (y : α) :
    y ∈ insertBy lt x l ↔ y = x ∨ y ∈ l := by
  rw [(insertBy_perm lt x l).mem_iff]; simp

/-- Elements already "in place": inserting an element no smaller than everything
present appends it at the end. -/
theorem insertBy_eq_append (lt : α → α → Bool) (x : α) (l : List α)
    (h : ∀ y ∈ l, lt x y = false) : insertBy lt x l = l ++ [x] := by
  induction l with
  | nil => rfl
  | cons y ys ih =>
    have hy : lt x y = false := h y (by simp)
    simp only [insertBy, hy, Bool.false_eq_true, if_false, List.cons_append,
      List.cons.injEq, true_and]
    exact ih fun z hz => h z (by simp [hz])

/-- The output of the insertion fold is sorted: no later element is strictly
below an earlier one (`List.Pairwise (fun a b => lt b a = false)`). -/
theorem insertBy_pairwise (lt : α → α → Bool)
    (hasym : ∀ a b, lt a b = true → lt b a = false)
    (htrans : ∀ a b c, lt a b = true → lt b c = true → lt a c = true)
    (x : α) (l : List α) (h : l.Pairwise (fun a b => lt b a = false)) :
    (insertBy lt x l).Pairwise (fun a b => lt b a = false) := by
  induction l with
  | nil => simp [insertBy]
  | cons y ys ih =>
    simp only [insertBy]
    rcases List.pairwise_cons.mp h with ⟨hy, hys⟩
    split
    · next hlt =>
      refine List.pairwise_cons.mpr ⟨?_, h⟩
      intro z hz
      rcases List.mem_cons.mp hz with hz | hz
      · subst hz
        exact hasym x z hlt
      · cases hzx : lt z x with
        | false => rfl
        | true => exact absurd (htrans z x y hzx hlt) (by simp [hy z hz])
    · next hlt =>
      refine List.pairwise_cons.mpr ⟨?_, ih hys⟩
      intro z hz
      rcases (mem_insertBy lt x ys z).mp hz with hz | hz
      · subst hz
        simpa using hlt
      · exact hy z hz

theorem foldl_insertBy_of_sorted (lt : α → α → Bool) :
    ∀ (l acc : List α), (∀ x ∈ l, ∀ y ∈ acc, lt x y = false) →
    l.Pairwise (fun a b => lt b a = false) →
    l.foldl (fun acc x => insertBy lt x acc) acc = acc ++ l := by
  intro l
  induction l with
  | nil => simp
  | cons x xs ih =>
    intro acc hge hp
    rcases List.pairwise_cons.mp hp with ⟨hx, hxs⟩
    have h1 : insertBy lt x acc = acc ++ [x] :=
      insertBy_eq_append lt x acc (fun y hy => hge x (by simp) y hy)
    have h2 : ∀ z ∈ xs, ∀ y ∈ acc ++ [x], lt z y = false := by
      intro z hz y hy
      rcases List.mem_append.mp hy with hy | hy
      · exact hge z (by simp [hz]) y hy
      · simp only [List.mem_singleton] at hy
        subst hy
        exact hx z hz
    calc (x :: xs).foldl (fun acc x => insertBy lt x acc) acc
        = xs.foldl (fun acc x => insertBy lt x acc) (insertBy lt x acc) := rfl
      _ = xs.foldl (fun acc x => insertBy lt x acc) (acc ++ [x]) := by rw [h1]
      _ = (acc ++ [x]) ++ xs := ih _ h2 hxs
      _ = acc ++ x :: xs := by simp

/-- A list that is already sorted is a fixed point of the insertion sort. -/
theorem sortBy'_of_pairwise (lt : α → α → Bool) (l : List α)
    (h : l.Pairwise (fun a b => lt b a = false)) : sortBy' lt l = l := by
  simpa [sortBy'] using foldl_insertBy_of_sorted lt l [] (by simp) h

/-- In a sorted list, any element strictly below another (by the sort key)
occurs strictly earlier. -/
theorem indexOf_lt_indexOf_of_pairwise [DecidableEq α] (lt : α → α → Bool)
    (hasym : ∀ a b, lt a b = true → lt b a = false) (l : List α)
    (h : l.Pairwise (fun a b => lt b a = false)) (a b : α)
    (ha : a ∈ l) (hb : b ∈ l) (hab : lt a b = true) :
    l.indexOf a < l.indexOf b := by
  by_contra hle
  push_neg at hle
  have hia : l.indexOf a < l.length := List.indexOf_lt_length.mpr ha
  have hib : l.indexOf b < l.length := List.indexOf_lt_length.mpr hb
  have hga : l[l.indexOf a] = a := List.getElem_indexOf hia
  have hgb : l[l.indexOf b] = b := List.getElem_indexOf hib
  rcases Nat.lt_or_eq_of_le hle with hlt | heq
  · have := (List.pairwise_iff_getElem.mp h) _ _ hib hia hlt
    rw [hga, hgb, hab] at this
    cases this
  · have hab' : a = b := (List.indexOf_inj ha hb).mp heq.symm
    subst hab'
    have hf := hasym a a hab
    rw [hab] at hf
    cases hf

namespace Rank

theorem build_ranking_none :
    ∀ (bs : List Block) (m : Option String → List Block),
      build_ranking m bs none = m none ++ bs.filter (fun b => decide (b.project = none)) := by
  intro bs
  induction bs with
  | nil => intro m; simp [build_ranking]
  | cons b bs ih =>
    intro m
    match hb : b.parent_issue with
    | none =>
      have hproj : b.project = none := by simp [Block.project, hb]
      simp only [build_ranking, hb]
      rw [ih]
      simp [hproj, List.filter_cons]
    | some p =>
      have hproj : b.project = some p.project := by simp [Block.project, hb]
      simp only [build_ranking, hb]
      rw [ih]
      simp [hproj, List.filter_cons]

theorem build_ranking_some :
    ∀ (bs : List Block) (m : Option String → List Block) (k : String),
      build_ranking m bs (some k) =
        (bs.filter (fun b => decide (b.project = some k))).foldl
          (fun acc b => insertBy blockLt b acc) (m (some k)) := by
  intro bs
  induction bs with
  | nil => intro m k; simp [build_ranking]
  | cons b bs ih =>
    intro m k
    match hb : b.parent_issue with
    | none =>
      have hproj : b.project = none := by simp [Block.project, hb]
      simp only [build_ranking, hb]
      rw [ih]
      simp [hproj, List.filter_cons]
    | some p =>
      have hproj : b.project = some p.project := by simp [Block.project, hb]
      simp only [build_ranking, hb]
      rw [ih]
      by_cases hk : p.project = k
      · subst hk
        simp [hproj, List.filter_cons]
      · have : ¬ (some k = some p.project) := by simp [Ne.symm hk]
        simp [hproj, List.filter_cons, hk, this]

theorem queues_none (bs : List Block) :
    queues bs none = bs.filter (fun b => decide (b.project = none)) := by
  simpa using build_ranking_none bs (fun _ => [])

theorem queues_some (bs : List Block) (k : String) :
    queues bs (some k) = sortBy' blockLt (bs.filter (fun b => decide (b.project = some k))) := by
  simpa [sortBy'] using build_ranking_some bs (fun _ => []) k

theorem queues_perm (bs : List Block) (p : Option String) :
    List.Perm (queues bs p) (bs.filter (fun b => decide (b.project = p))) := by
  cases p with
  | none => rw [queues_none]
  | some k => rw [queues_some]; exact sortBy'_perm _ _

theorem mem_queues_project (bs : List Block) (p : Option String) :
    ∀ b ∈ queues bs p, b.project = p := by
  intro b hb
  have := (queues_perm bs p).mem_iff.mp hb
  simpa using (List.of_mem_filter this)

theorem queues_length (bs : List Block) (p : Option String) :
    (queues bs p).length = (bs.filter (fun b => decide (b.project = p))).length :=
  (queues_perm bs p).length_eq

/-- The re-threading phase: the slot sequence of projects is preserved, and the
blocks landing on project `p`'s slots are exactly queue `p`, in queue order. -/
theorem rethread_spec :
    ∀ (bs : List Block) (m : Option String → List Block),
      (∀ p, (m p).length = (bs.filter (fun b => decide (b.project = p))).length) →
      (∀ p, ∀ b ∈ m p, b.project = p) →
      (rethread m bs).map Block.project = bs.map Block.project ∧
      ∀ p, (rethread m bs).filter (fun b => decide (b.project = p)) = m p := by
  intro bs
  induction bs with
  | nil =>
    intro m hlen hproj
    refine ⟨rfl, fun p => ?_⟩
    have h := (hlen p).symm
    simp only [List.filter_nil, List.length_nil] at h
    simp [rethread, List.length_eq_zero.mp h.symm]
  | cons b bs ih =>
    intro m hlen hproj
    have hlenb := hlen b.project
    rw [List.filter_cons_of_pos (by simp)] at hlenb
    obtain ⟨q, rest, hq⟩ : ∃ q rest, m b.project = q :: rest := by
      match hm : m b.project with
      | [] => rw [hm] at hlenb; simp at hlenb
      | q :: rest => exact ⟨q, rest, rfl⟩
    have hqproj : q.project = b.project := hproj b.project q (by rw [hq]; simp)
    have hlen' : ∀ p, ((fun pk => if pk = b.project then (m pk).tail else m pk) p).length
        = (bs.filter (fun b' => decide (b'.project = p))).length := by
      intro p
      by_cases hp : p = b.project
      · subst hp
        simp only [if_pos rfl, hq, List.tail_cons]
        rw [hq] at hlenb
        simpa using hlenb
      · simp only [if_neg hp]
        have := hlen p
        rw [List.filter_cons_of_neg (by simpa using Ne.symm hp)] at this
        exact this
    have hproj' : ∀ p, ∀ b' ∈ (fun pk => if pk = b.project then (m pk).tail else m pk) p,
        b'.project = p := by
      intro p b' hb'
      by_cases hp : p = b.project
      · subst hp
        simp only [if_pos rfl] at hb'
        exact hproj _ b' (List.mem_of_mem_tail hb')
      · simp only [if_neg hp] at hb'
        exact hproj _ b' hb'
    obtain ⟨ihmap, ihfilt⟩ := ih _ hlen' hproj'
    have hunfold : rethread m (b :: bs)
        = q :: rethread (fun pk => if pk = b.project then (m pk).tail else m pk) bs := by
      simp only [rethread]
      rw [hq]
    constructor
    · rw [hunfold]
      simp only [List.map_cons, hqproj, ihmap]
    · intro p
      rw [hunfold]
      by_cases hp : p = b.project
      · subst hp
        rw [List.filter_cons_of_pos (by simp [hqproj])]
        rw [ihfilt b.project]
        simp [hq]
      · rw [List.filter_cons_of_neg (by simp [hqproj]; exact Ne.symm hp)]
        rw [ihfilt p]
        simp [if_neg hp]

theorem sort_by_project_rank_map (bs : List Block) :
    (sort_by_project_rank bs).map Block.project = bs.map Block.project :=
  (rethread_spec bs (queues bs) (queues_length bs) (mem_queues_project bs)).1

theorem sort_by_project_rank_filter (bs : List Block) (p : Option String) :
    (sort_by_project_rank bs).filter (fun b => decide (b.project = p)) = queues bs p :=
  (rethread_spec bs (queues bs) (queues_length bs) (mem_queues_project bs)).2 p

theorem sort_by_project_rank_perm (bs : List Block) :
    List.Perm (sort_by_project_rank bs) bs := by
  rw [List.perm_iff_count]
  intro a
  have h1 : (sort_by_project_rank bs).count a
      = ((sort_by_project_rank bs).filter (fun b => decide (b.project = a.project))).count a :=
    (List.count_filter (by simp)).symm
  rw [h1, sort_by_project_rank_filter]
  rw [(queues_perm bs a.project).count_eq]
  exact List.count_filter (by simp)


end Rank

/-! ## Generic theorem helpers -/

theorem sortBy'_pairwise (lt : α → α → Bool)
    (hasym : ∀ a b, lt a b = true → lt b a = false)
    (htrans : ∀ a b c, lt a b = true → lt b c = true → lt a c = true)
    (l : List α) : (sortBy' lt l).Pairwise (fun a b => lt b a = false) := by
  suffices h : ∀ (l acc : List α), acc.Pairwise (fun a b => lt b a = false) →
      (l.foldl (fun acc x => insertBy lt x acc) acc).Pairwise (fun a b => lt b a = false) by
    exact h l [] (by simp)
  intro l
  induction l with
  | nil => intro acc h; simpa using h
  | cons x xs ih =>
    intro acc h
    exact ih _ (insertBy_pairwise lt hasym htrans x acc h)

theorem flatMap_append_perm (l : List α) (f g : α → List β) :
    List.Perm (l.flatMap (fun x => f x ++ g x)) (l.flatMap f ++ l.flatMap g) := by
  induction l with
  | nil => simp
  | cons x xs ih =>
    simp only [List.flatMap_cons, List.append_assoc]
    exact (((ih.append_left (g x)).trans
      (List.perm_append_comm_assoc (g x) (xs.flatMap f) (xs.flatMap g))).append_left (f x))

namespace Rank

theorem blockLt_asym : ∀ a b : Block, blockLt a b = true → blockLt b a = false := by
  intro a b h
  simp only [blockLt, decide_eq_true_eq] at h
  simp only [blockLt, decide_eq_false_iff_not, not_lt]
  omega

theorem blockLt_trans :
    ∀ a b c : Block, blockLt a b = true → blockLt b c = true → blockLt a c = true := by
  intro a b c h1 h2
  simp only [blockLt, decide_eq_true_eq] at *
  omega

theorem get_issues_perm (bs : List Block) :
    List.Perm (get_issues bs) (parent_emissions bs ++ bs.flatMap Block.issues) :=
  flatMap_append_perm bs _ _

theorem add_to_parent_block_flat (p : ParentIssue) (i : Issue) :
    ∀ bs : List Block,
      List.Perm ((add_to_parent_block p i bs).flatMap Block.issues)
        (bs.flatMap Block.issues ++ [i]) := by
  intro bs
  induction bs with
  | nil => simp [add_to_parent_block]
  | cons b bs ih =>
    simp only [add_to_parent_block]
    split
    · simp only [List.flatMap_cons, List.append_assoc]
      exact List.Perm.append_left b.issues List.perm_append_comm
    · simp only [List.flatMap_cons, List.append_assoc]
      exact ih.append_left b.issues

theorem add_issue_flat (bs : List Block) (i : Issue) :
    List.Perm ((add_issue bs i).flatMap Block.issues) (bs.flatMap Block.issues ++ [i]) := by
  unfold add_issue
  match i.parent with
  | none => simp
  | some p => exact add_to_parent_block_flat p i bs

theorem buildBlocks_flat (issues : List Issue) :
    List.Perm ((buildBlocks issues).flatMap Block.issues) issues := by
  suffices h : ∀ (is : List Issue) (acc : List Block),
      List.Perm ((is.foldl add_issue acc).flatMap Block.issues)
        (acc.flatMap Block.issues ++ is) by
    simpa [buildBlocks] using h issues []
  intro is
  induction is with
  | nil => intro acc; simp
  | cons i is ih =>
    intro acc
    have h1 := ih (add_issue acc i)
    have h2 : List.Perm ((add_issue acc i).flatMap Block.issues ++ is)
        ((acc.flatMap Block.issues ++ [i]) ++ is) :=
      (add_issue_flat acc i).append_right is
    have h3 : (acc.flatMap Block.issues ++ [i]) ++ is
        = acc.flatMap Block.issues ++ i :: is := by simp
    exact (h1.trans (h2.trans (h3 ▸ List.Perm.refl _)))

theorem rethread_congr_map :
    ∀ (bs₁ bs₂ : List Block) (m : Option String → List Block),
      bs₁.map Block.project = bs₂.map Block.project → rethread m bs₁ = rethread m bs₂ := by
  intro bs₁
  induction bs₁ with
  | nil =>
    intro bs₂ m h
    cases bs₂ with
    | nil => rfl
    | cons c cs => simp at h
  | cons b bs ih =>
    intro bs₂ m h
    cases bs₂ with
    | nil => simp at h
    | cons c cs =>
      simp only [List.map_cons, List.cons.injEq] at h
      obtain ⟨hb, hrest⟩ := h
      simp only [rethread, hb]
      cases hm : m c.project with
      | nil => rfl
      | cons q rest =>
        show q :: rethread (fun pk => if pk = c.project then (m pk).tail else m pk) bs
            = q :: rethread (fun pk => if pk = c.project then (m pk).tail else m pk) cs
        exact congrArg _ (ih cs _ hrest)

theorem queues_of_sorted (bs : List Block) :
    queues (sort_by_project_rank bs) = queues bs := by
  funext p
  cases p with
  | none =>
    rw [queues_none, sort_by_project_rank_filter bs none]
  | some k =>
    rw [queues_some, sort_by_project_rank_filter bs (some k), queues_some]
    exact sortBy'_of_pairwise _ _ (sortBy'_pairwise blockLt blockLt_asym blockLt_trans _)

theorem sort_by_project_rank_idem (bs : List Block) :
    sort_by_project_rank (sort_by_project_rank bs) = sort_by_project_rank bs := by
  show rethread (queues (sort_by_project_rank bs)) (sort_by_project_rank bs)
      = sort_by_project_rank bs
  rw [queues_of_sorted]
  exact rethread_congr_map _ bs _ (sort_by_project_rank_map bs)

end Rank

/-- The emitter never moves anything when the new ranking equals the old one:
the sticky flag never turns on. -/
theorem set_rank_go_self : ∀ (l : List Issue) (prev : Option Issue),
    set_rank_go prev false l l = [] := by
  intro l
  induction l with
  | nil => intro prev; rfl
  | cons x xs ih =>
    intro prev
    simp only [set_rank_go, ne_eq, not_true_eq_false, if_neg, ite_false, List.nil_append]
    exact ih (some x)

theorem set_rank_self (l : List Issue) : set_rank l l = [] :=
  set_rank_go_self l none

/-- The whole `rank.py` pipeline flattens to the input plus the emitted
parents: no input issue is dropped or duplicated, and exactly the matching
parents are added. -/
theorem rank_pipeline_perm (issues : List Issue) :
    List.Perm (Rank.get_issues (Rank.sort false (Rank.buildBlocks issues)))
      (Rank.parent_emissions (Rank.sort false (Rank.buildBlocks issues)) ++ issues) := by
  refine (Rank.get_issues_perm _).trans (List.Perm.append_left _ ?_)
  show List.Perm ((Rank.sort_by_project_rank (Rank.buildBlocks issues)).flatMap
    Rank.Block.issues) issues
  exact ((Rank.sort_by_project_rank_perm _).flatMap_right Rank.Block.issues).trans
    (Rank.buildBlocks_flat issues)

/-- C1: project-swap isolation of `_sort_by_project_rank` (`rank.py`).
First conjunct: each slot of the output carries a block of the same parent
project as the block originally in that slot (orphan slots get parentless
blocks) — the slot sequence of projects is unchanged.  Second conjunct: the
ordered sub-sequence of blocks of any project `Q` depends only on the input's
blocks of project `Q`, so a rank change among parents of a different project
`P` (which leaves `Q`'s blocks untouched) never alters the relative order of
`Q`'s blocks. -/
theorem c1_project_swap_isolation :
    (∀ bs : List Rank.Block,
      (Rank.sort_by_project_rank bs).map Rank.Block.project = bs.map Rank.Block.project) ∧
    (∀ (Q : Option String) (bs₁ bs₂ : List Rank.Block),
      bs₁.filter (fun b => decide (b.project = Q))
        = bs₂.filter (fun b => decide (b.project = Q)) →
      (Rank.sort_by_project_rank bs₁).filter (fun b => decide (b.project = Q))
        = (Rank.sort_by_project_rank bs₂).filter (fun b => decide (b.project = Q))) := by
  constructor
  · exact Rank.sort_by_project_rank_map
  · intro Q bs₁ bs₂ h
    rw [Rank.sort_by_project_rank_filter, Rank.sort_by_project_rank_filter]
    cases Q with
    | none => rw [Rank.queues_none, Rank.queues_none, h]
    | some k => rw [Rank.queues_some, Rank.queues_some, h]

/-- Witness for C1 at a concrete input: the two block lists differ only in the
ranks of project "P"'s parents, and project "Q"'s block sub-sequence is
untouched by the sort on either side. -/
theorem c1_project_swap_isolation_w :
    wBlocksA.filter (fun b => decide (b.project = some "Q"))
        = wBlocksB.filter (fun b => decide (b.project = some "Q")) ∧
      (Rank.sort_by_project_rank wBlocksA).filter (fun b => decide (b.project = some "Q"))
        = (Rank.sort_by_project_rank wBlocksB).filter (fun b => decide (b.project = some "Q")) :=
  ⟨by decide, c1_project_swap_isolation.2 (some "Q") wBlocksA wBlocksB (by decide)⟩

/-- C5: the `test_rank_single_move` fixture (parent3 reranked to 0) flattens to
exactly `child0, parent3, child3, parent1, child1, parent2, child2, child4`. -/
theorem c5_single_parent_move :
    (Rank.get_issues (Rank.sort false (Rank.buildBlocks fxIssues))).map Issue.key =
      ["child0", "parent3", "child3", "parent1", "child1", "parent2", "child2", "child4"] := by
  decide

/-- C4, counterexample to re-partition idempotence as claimed: re-running the
pipeline on the engine's own flattened output duplicates the inlined parent
(the output `[p, c]` re-partitions into an orphan block `[p]` plus a
parent-led block `(p, [c])`, and flattening emits `p` twice). -/
theorem c4_repartition_counterexample :
    Rank.get_issues (Rank.sort false (Rank.buildBlocks
        (Rank.get_issues (Rank.sort false (Rank.buildBlocks [cxChild])))))
      ≠ Rank.get_issues (Rank.sort false (Rank.buildBlocks [cxChild])) := by
  decide

/-- C4 (amended): sorting the engine's own block structure a second time is the
identity, hence flattening again yields the same order and the diff emitter
emits zero moves on the second pass. -/
theorem c4_second_pass_idempotent (issues : List Issue) :
    Rank.sort false (Rank.sort false (Rank.buildBlocks issues))
        = Rank.sort false (Rank.buildBlocks issues) ∧
      set_rank (Rank.get_issues (Rank.sort false (Rank.buildBlocks issues)))
        (Rank.get_issues (Rank.sort false (Rank.sort false (Rank.buildBlocks issues)))) = [] := by
  have h : Rank.sort false (Rank.sort false (Rank.buildBlocks issues))
      = Rank.sort false (Rank.buildBlocks issues) :=
    Rank.sort_by_project_rank_idem (Rank.buildBlocks issues)
  exact ⟨h, by rw [h]; exact set_rank_self _⟩

/-- Two filters that are pointwise complementary partition the list, up to
permutation (the shape shared by `_sort_by_status`, `_deprioritize_orphans`,
`_prioritize_timesensitive_block` and `_prioritize_fixversion_block`). -/
theorem filter_partition_perm (p q : α → Bool) (hq : ∀ a, q a = !p a) (l : List α) :
    List.Perm (l.filter p ++ l.filter q) l := by
  have h : l.filter q = l.filter (fun a => !p a) :=
    List.filter_congr (fun a _ => hq a)
  rw [h]
  exact List.filter_append_perm p l

namespace TS

theorem ts_rank_none_project (b : Block) (h : b.rank = none) : b.project = none := by
  unfold Block.rank at h
  split at h
  · cases h
  · cases hp : b.parent_issue with
    | none => simp [Block.project, hp]
    | some p => rw [hp] at h; simp at h

theorem ts_build_ranking_perm :
    ∀ (bs : List Block) (m : Option String → List Block) (p : Option String),
      List.Perm (build_ranking m bs p)
        (m p ++ bs.filter (fun b => decide (b.project = p))) := by
  intro bs
  induction bs with
  | nil => intro m p; simp [build_ranking]
  | cons b bs ih =>
    intro m p
    cases hr : b.rank with
    | none =>
      have hproj : b.project = none := ts_rank_none_project b hr
      simp only [build_ranking]
      rw [hr]
      by_cases hp : p = none
      · subst hp
        have := ih (fun q => if q = none then m none ++ [b] else m q) none
        simp only [if_pos rfl] at this
        refine this.trans ?_
        rw [List.filter_cons_of_pos (by simp [hproj])]
        simp [List.append_assoc]
      · have := ih (fun q => if q = none then m none ++ [b] else m q) p
        simp only [if_neg hp] at this
        refine this.trans ?_
        rw [List.filter_cons_of_neg (by simp [hproj]; exact fun hc => hp hc.symm)]
    | some r =>
      simp only [build_ranking]
      rw [hr]
      by_cases hp : p = b.project
      · subst hp
        have := ih (fun q => if q = b.project then insertBy blockLtT b (m b.project) else m q)
          b.project
        simp only [if_pos rfl] at this
        refine this.trans ?_
        rw [List.filter_cons_of_pos (by simp)]
        refine ((insertBy_perm blockLtT b (m b.project)).append_right _).trans ?_
        exact List.perm_middle.symm
      · have := ih (fun q => if q = b.project then insertBy blockLtT b (m b.project) else m q) p
        simp only [if_neg hp] at this
        refine this.trans ?_
        rw [List.filter_cons_of_neg (by simp; exact fun hc => hp hc.symm)]

theorem ts_queues_perm (bs : List Block) (p : Option String) :
    List.Perm (queues bs p) (bs.filter (fun b => decide (b.project = p))) := by
  simpa using ts_build_ranking_perm bs (fun _ => []) p

theorem ts_mem_queues_project (bs : List Block) (p : Option String) :
    ∀ b ∈ queues bs p, b.project = p := by
  intro b hb
  have := (ts_queues_perm bs p).mem_iff.mp hb
  simpa using (List.of_mem_filter this)

theorem ts_queues_length (bs : List Block) (p : Option String) :
    (queues bs p).length = (bs.filter (fun b => decide (b.project = p))).length :=
  (ts_queues_perm bs p).length_eq

theorem ts_rethread_spec :
    ∀ (bs : List Block) (m : Option String → List Block),
      (∀ p, (m p).length = (bs.filter (fun b => decide (b.project = p))).length) →
      (∀ p, ∀ b ∈ m p, b.project = p) →
      (rethread m bs).map Block.project = bs.map Block.project ∧
      ∀ p, (rethread m bs).filter (fun b => decide (b.project = p)) = m p := by
  intro bs
  induction bs with
  | nil =>
    intro m hlen hproj
    refine ⟨rfl, fun p => ?_⟩
    have h := (hlen p).symm
    simp only [List.filter_nil, List.length_nil] at h
    simp [rethread, List.length_eq_zero.mp h.symm]
  | cons b bs ih =>
    intro m hlen hproj
    have hlenb := hlen b.project
    rw [List.filter_cons_of_pos (by simp)] at hlenb
    obtain ⟨q, rest, hq⟩ : ∃ q rest, m b.project = q :: rest := by
      match hm : m b.project with
      | [] => rw [hm] at hlenb; simp at hlenb
      | q :: rest => exact ⟨q, rest, rfl⟩
    have hqproj : q.project = b.project := hproj b.project q (by rw [hq]; simp)
    have hlen' : ∀ p, ((fun pk => if pk = b.project then (m pk).tail else m pk) p).length
        = (bs.filter (fun b' => decide (b'.project = p))).length := by
      intro p
      by_cases hp : p = b.project
      · subst hp
        simp only [if_pos rfl, hq, List.tail_cons]
        rw [hq] at hlenb
        simpa using hlenb
      · simp only [if_neg hp]
        have := hlen p
        rw [List.filter_cons_of_neg (by simpa using Ne.symm hp)] at this
        exact this
    have hproj' : ∀ p, ∀ b' ∈ (fun pk => if pk = b.project then (m pk).tail else m pk) p,
        b'.project = p := by
      intro p b' hb'
      by_cases hp : p = b.project
      · subst hp
        simp only [if_pos rfl] at hb'
        exact hproj _ b' (List.mem_of_mem_tail hb')
      · simp only [if_neg hp] at hb'
        exact hproj _ b' hb'
    obtain ⟨ihmap, ihfilt⟩ := ih _ hlen' hproj'
    have hunfold : rethread m (b :: bs)
        = q :: rethread (fun pk => if pk = b.project then (m pk).tail else m pk) bs := by
      simp only [rethread]
      rw [hq]
    constructor
    · rw [hunfold]
      simp only [List.map_cons, hqproj, ihmap]
    · intro p
      rw [hunfold]
      by_cases hp : p = b.project
      · subst hp
        rw [List.filter_cons_of_pos (by simp [hqproj])]
        rw [ihfilt b.project]
        simp [hq]
      · rw [List.filter_cons_of_neg (by simp [hqproj]; exact Ne.symm hp)]
        rw [ihfilt p]
        simp [if_neg hp]

theorem ts_sort_by_project_rank_perm (bs : List Block) :
    List.Perm (sort_by_project_rank bs) bs := by
  unfold sort_by_project_rank
  rw [List.perm_iff_count]
  intro a
  have h1 : (rethread (queues bs) bs).count a
      = ((rethread (queues bs) bs).filter (fun b => decide (b.project = a.project))).count a :=
    (List.count_filter (by simp)).symm
  rw [h1,
    (ts_rethread_spec bs (queues bs) (ts_queues_length bs) (ts_mem_queues_project bs)).2]
  rw [(ts_queues_perm bs a.project).count_eq]
  exact List.count_filter (by simp)

theorem ts_sort_perm (bs : List Block) : List.Perm (sort bs) bs := by
  unfold sort prioritize_timesensitive_block deprioritize_orphans sort_by_status
  refine ((filter_partition_perm _ _ (by intro a; rfl) _).trans ?_)
  refine ((filter_partition_perm _ _ (by intro a; simp) _).trans ?_)
  refine ((filter_partition_perm _ _ (by intro a; rfl) _).trans ?_)
  exact ts_sort_by_project_rank_perm bs

theorem ts_yield_perm (b : Block) : List.Perm b.yield_issues b.issues := by
  unfold Block.yield_issues
  by_cases hts : b.ts
  · simp only [hts, if_true]
    cases hiss : b.issues with
    | nil => simp
    | cons i is =>
      exact sortBy'_perm _ (i :: is)
  · simp [hts]

theorem ts_get_issues_perm (bs : List Block) :
    List.Perm (get_issues bs) (bs.flatMap Block.issues) :=
  List.Perm.flatMap_left bs (fun b _ => ts_yield_perm b)

theorem ts_add_issue_flat :
    ∀ (bs : List Block) (i : Issue),
      List.Perm ((add_issue bs i).flatMap Block.issues) (bs.flatMap Block.issues ++ [i]) := by
  intro bs
  induction bs with
  | nil => intro i; simp [add_issue]
  | cons b bs ih =>
    intro i
    simp only [add_issue]
    split
    · simp only [List.flatMap_cons, List.append_assoc]
      exact List.Perm.append_left b.issues List.perm_append_comm
    · simp only [List.flatMap_cons, List.append_assoc]
      exact (ih i).append_left b.issues

theorem ts_buildBlocks_flat (issues : List Issue) :
    List.Perm ((buildBlocks issues).flatMap Block.issues) issues := by
  suffices h : ∀ (is : List Issue) (acc : List Block),
      List.Perm ((is.foldl add_issue acc).flatMap Block.issues)
        (acc.flatMap Block.issues ++ is) by
    simpa [buildBlocks] using h issues [⟨true, none, []⟩]
  intro is
  induction is with
  | nil => intro acc; simp
  | cons i is ih =>
    intro acc
    have h2 : List.Perm ((add_issue acc i).flatMap Block.issues ++ is)
        ((acc.flatMap Block.issues ++ [i]) ++ is) :=
      (ts_add_issue_flat acc i).append_right is
    have h3 : (acc.flatMap Block.issues ++ [i]) ++ is
        = acc.flatMap Block.issues ++ i :: is := by simp
    exact ((ih (add_issue acc i)).trans (h2.trans (h3 ▸ List.Perm.refl _)))

/-- The whole time-sensitive pipeline is a permutation of its input: no issue
created, dropped or duplicated. -/
theorem ts_pipeline_perm (issues : List Issue) :
    List.Perm (pipeline issues) issues :=
  ((ts_get_issues_perm _).trans
    ((ts_sort_perm _).flatMap_right Block.issues)).trans (ts_buildBlocks_flat issues)

end TS

namespace TS

theorem ts_add_issue_nonts (i : Issue) :
    ∀ bs : List Block, (∀ b ∈ bs, b.ts = false) → ∀ b ∈ add_issue bs i, b.ts = false := by
  intro bs
  induction bs with
  | nil =>
    intro _ b hb
    simp only [add_issue, List.mem_singleton] at hb
    subst hb
    rfl
  | cons b0 bs ih =>
    intro hall b hb
    simp only [add_issue] at hb
    split at hb
    · rcases List.mem_cons.mp hb with hb | hb
      · subst hb
        exact hall b0 (by simp)
      · exact hall b (by simp [hb])
    · rcases List.mem_cons.mp hb with hb | hb
      · subst hb
        exact hall b (by simp)
      · exact ih (fun b' hb' => hall b' (by simp [hb'])) b hb

theorem ts_buildBlocks_decomp (issues : List Issue) :
    ∃ rest, buildBlocks issues
        = (⟨true, none, issues.filter timesensitive_claims⟩ : Block) :: rest
      ∧ ∀ b ∈ rest, b.ts = false := by
  suffices h : ∀ (is : List Issue) (acc : List Issue) (rest : List Block),
      (∀ b ∈ rest, b.ts = false) →
      ∃ rest2, is.foldl add_issue ((⟨true, none, acc⟩ : Block) :: rest)
          = (⟨true, none, acc ++ is.filter timesensitive_claims⟩ : Block) :: rest2
        ∧ ∀ b ∈ rest2, b.ts = false by
    simpa [buildBlocks] using h issues [] [] (by simp)
  intro is
  induction is with
  | nil =>
    intro acc rest hrest
    exact ⟨rest, by simp, hrest⟩
  | cons i is ih =>
    intro acc rest hrest
    cases hc : timesensitive_claims i with
    | true =>
      have hstep : add_issue ((⟨true, none, acc⟩ : Block) :: rest) i
          = (⟨true, none, acc ++ [i]⟩ : Block) :: rest := by
        simp [add_issue, Block.claims, hc]
      obtain ⟨rest2, heq, hr2⟩ := ih (acc ++ [i]) rest hrest
      refine ⟨rest2, ?_, hr2⟩
      rw [List.foldl_cons, hstep, heq]
      rw [List.filter_cons_of_pos (by simp [hc])]
      simp
    | false =>
      have hstep : add_issue ((⟨true, none, acc⟩ : Block) :: rest) i
          = (⟨true, none, acc⟩ : Block) :: add_issue rest i := by
        simp [add_issue, Block.claims, hc]
      obtain ⟨rest2, heq, hr2⟩ := ih acc (add_issue rest i) (ts_add_issue_nonts i rest hrest)
      refine ⟨rest2, ?_, hr2⟩
      rw [List.foldl_cons, hstep, heq]
      rw [List.filter_cons_of_neg (by simp [hc])]

theorem ts_sort_decomp (issues : List Issue) :
    ∃ rest, sort (buildBlocks issues)
        = (⟨true, none, issues.filter timesensitive_claims⟩ : Block) :: rest
      ∧ ∀ b ∈ rest, b.ts = false := by
  obtain ⟨rest0, hb, hrest0⟩ := ts_buildBlocks_decomp issues
  have hmidperm :
      List.Perm
        (deprioritize_orphans (sort_by_status (sort_by_project_rank (buildBlocks issues))))
        (buildBlocks issues) := by
    refine (filter_partition_perm _ _ (fun a => by simp) _).trans ?_
    refine (filter_partition_perm _ _ (fun a => rfl) _).trans ?_
    exact ts_sort_by_project_rank_perm _
  have htsb : (buildBlocks issues).filter (fun b => b.ts)
      = [(⟨true, none, issues.filter timesensitive_claims⟩ : Block)] := by
    rw [hb, List.filter_cons_of_pos (by rfl)]
    have h0 : rest0.filter (fun b => b.ts) = [] :=
      List.filter_eq_nil_iff.mpr (fun b hbm => by simp [hrest0 b hbm])
    rw [h0]
  have hfil :
      (deprioritize_orphans (sort_by_status (sort_by_project_rank
        (buildBlocks issues)))).filter (fun b => b.ts)
      = [(⟨true, none, issues.filter timesensitive_claims⟩ : Block)] := by
    have h := hmidperm.filter (fun b => b.ts)
    rw [htsb] at h
    exact h.eq_singleton
  refine ⟨(deprioritize_orphans (sort_by_status (sort_by_project_rank
    (buildBlocks issues)))).filter (fun b => !b.ts), ?_, ?_⟩
  · unfold sort prioritize_timesensitive_block
    rw [hfil]
    rfl
  · intro b hbm
    have := List.of_mem_filter hbm
    simpa using this

/-- The yield of the time-sensitive block is always its issues sorted by due
date (the early return on an empty block agrees with sorting nothing). -/
theorem ts_yield_ts_block (iss : List Issue) :
    Block.yield_issues (⟨true, none, iss⟩ : Block) = sortBy' dueLt iss := by
  cases iss with
  | nil => rfl
  | cons i is => rfl

theorem dueLt_asym : ∀ a b : Issue, dueLt a b = true → dueLt b a = false := by
  intro a b h
  simp only [dueLt, decide_eq_true_eq] at h
  simp only [dueLt, decide_eq_false_iff_not, not_lt]
  omega

theorem dueLt_trans :
    ∀ a b c : Issue, dueLt a b = true → dueLt b c = true → dueLt a c = true := by
  intro a b c h1 h2
  simp only [dueLt, decide_eq_true_eq] at *
  omega

end TS

/-- C2, counterexample: for a single child whose parent shares its project, the
pipeline's flat output gains the parent, so it is not a permutation of the
input. -/
theorem c2_counterexample :
    ¬ List.Perm (Rank.get_issues (Rank.sort false (Rank.buildBlocks [cxChild]))) [cxChild] := by
  decide

/-- C2 (amended): the `rank.py` pipeline flattens to the input plus exactly one
occurrence of each block parent whose project matches its first issue's
project (no input item dropped or duplicated); the time-sensitive variant,
whose `get_issues` emits only the blocks' contents, preserves the multiset
exactly. -/
theorem c2_permutation_amended :
    (∀ issues : List Issue,
      List.Perm (Rank.get_issues (Rank.sort false (Rank.buildBlocks issues)))
        (Rank.parent_emissions (Rank.sort false (Rank.buildBlocks issues)) ++ issues)) ∧
    (∀ issues : List Issue, List.Perm (TS.pipeline issues) issues) :=
  ⟨rank_pipeline_perm, TS.ts_pipeline_perm⟩

/-- C7: in the time-sensitive pipeline the time-sensitive block claims exactly
the issues whose due date is within the 90-day horizon, it is first after
sorting, and it flattens to those issues sorted by due date ascending; hence a
30-days-out item precedes a 60-days-out item, and both precede every item with
no due date, regardless of ranks. -/
theorem c7_duedate_urgency (issues : List Issue) :
    (TS.sort (TS.buildBlocks issues)).head?
        = some (⟨true, none, issues.filter TS.timesensitive_claims⟩ : TS.Block) ∧
    (TS.pipeline issues).take (issues.filter TS.timesensitive_claims).length
        = sortBy' TS.dueLt (issues.filter TS.timesensitive_claims) ∧
    (∀ a b c : Issue, a ∈ issues → b ∈ issues → c ∈ issues →
      a.duedate = some 30 → b.duedate = some 60 → c.duedate = none →
      c ∈ TS.pipeline issues ∧
        (TS.pipeline issues).indexOf a < (TS.pipeline issues).indexOf b ∧
        (TS.pipeline issues).indexOf b < (TS.pipeline issues).indexOf c) := by
  obtain ⟨rest, hdecomp, hrest⟩ := TS.ts_sort_decomp issues
  have hpipe : TS.pipeline issues
      = sortBy' TS.dueLt (issues.filter TS.timesensitive_claims)
        ++ rest.flatMap TS.Block.yield_issues := by
    unfold TS.pipeline TS.get_issues
    rw [hdecomp]
    simp only [List.flatMap_cons]
    rw [TS.ts_yield_ts_block]
  refine ⟨by rw [hdecomp]; rfl, ?_, ?_⟩
  · rw [hpipe]
    exact List.take_left' (sortBy'_perm _ _).length_eq
  · intro a b c ha hb hc hda hdb hdc
    have hca : TS.timesensitive_claims a = true := by
      simp [TS.timesensitive_claims, hda]
    have hcb : TS.timesensitive_claims b = true := by
      simp [TS.timesensitive_claims, hdb]
    have hcc : TS.timesensitive_claims c = false := by
      simp [TS.timesensitive_claims, hdc]
    have haS : a ∈ sortBy' TS.dueLt (issues.filter TS.timesensitive_claims) :=
      (sortBy'_perm _ _).mem_iff.mpr (List.mem_filter.mpr ⟨ha, hca⟩)
    have hbS : b ∈ sortBy' TS.dueLt (issues.filter TS.timesensitive_claims) :=
      (sortBy'_perm _ _).mem_iff.mpr (List.mem_filter.mpr ⟨hb, hcb⟩)
    have hcS : c ∉ sortBy' TS.dueLt (issues.filter TS.timesensitive_claims) := by
      intro hmem
      have := List.of_mem_filter ((sortBy'_perm _ _).mem_iff.mp hmem)
      rw [hcc] at this
      cases this
    refine ⟨(TS.ts_pipeline_perm issues).mem_iff.mpr hc, ?_, ?_⟩
    · rw [hpipe, List.indexOf_append_of_mem haS, List.indexOf_append_of_mem hbS]
      refine indexOf_lt_indexOf_of_pairwise TS.dueLt TS.dueLt_asym _
        (sortBy'_pairwise TS.dueLt TS.dueLt_asym TS.dueLt_trans _) a b haS hbS ?_
      simp [TS.dueLt, TS.duedateKey, hda, hdb]
    · rw [hpipe, List.indexOf_append_of_mem hbS, List.indexOf_append_of_not_mem hcS]
      calc List.indexOf b (sortBy' TS.dueLt (issues.filter TS.timesensitive_claims))
          < (sortBy' TS.dueLt (issues.filter TS.timesensitive_claims)).length :=
            List.indexOf_lt_length.mpr hbS
        _ ≤ (sortBy' TS.dueLt (issues.filter TS.timesensitive_claims)).length
            + List.indexOf c (rest.flatMap TS.Block.yield_issues) := Nat.le_add_right _ _

/-- Witness for C7's quantified part: three concrete issues due in 30 days, 60
days and undated, ranked in the opposite order. -/
theorem c7_duedate_urgency_w :
    duIssue30 ∈ ([duIssueNone, duIssue60, duIssue30] : List Issue) ∧
      duIssueNone ∈ TS.pipeline [duIssueNone, duIssue60, duIssue30] ∧
      (TS.pipeline [duIssueNone, duIssue60, duIssue30]).indexOf duIssue30
        < (TS.pipeline [duIssueNone, duIssue60, duIssue30]).indexOf duIssue60 ∧
      (TS.pipeline [duIssueNone, duIssue60, duIssue30]).indexOf duIssue60
        < (TS.pipeline [duIssueNone, duIssue60, duIssue30]).indexOf duIssueNone := by
  have h := (c7_duedate_urgency [duIssueNone, duIssue60, duIssue30]).2.2
    duIssue30 duIssue60 duIssueNone (by decide) (by decide) (by decide)
    (by decide) (by decide) (by decide)
  exact ⟨by decide, h.1, h.2.1, h.2.2⟩

theorem except_ok_bind {ε α β : Type} (a : α) (f : α → Except ε β) :
    (Except.ok a >>= f) = f a := rfl

theorem pfr_one_claims (issues : List Issue) (i : Issue) (h : i ∈ issues) :
    PFR.pclaim issues 1 i = true := by
  have hne : issues ≠ [] := List.ne_nil_of_mem h
  have hlen : 0 < issues.length := List.length_pos.mpr hne
  have hidx : issues.indexOf i < issues.length := List.indexOf_lt_length.mpr h
  simp only [PFR.pclaim, if_neg hne, decide_eq_true_eq]
  rw [div_le_one (by exact_mod_cast hlen)]
  exact_mod_cast Nat.le_of_lt hidx

theorem pfr_build_spec (issues : List Issue) :
    ∀ is : List Issue, (∀ i ∈ is, i ∈ issues) → ∀ l1 l2 l3 l4 : List Issue,
      is.foldlM (fun bs i => PFR.add_issue bs i issues)
        [⟨"Critical", 0.0625, l1⟩, ⟨"Major", 0.125, l2⟩,
          ⟨"Normal", 0.25, l3⟩, ⟨"Minor", 1, l4⟩]
        = Except.ok
          [⟨"Critical", 0.0625, l1 ++ is.filter (fun i => PFR.pclaim issues 0.0625 i)⟩,
            ⟨"Major", 0.125, l2 ++ is.filter (fun i =>
              !PFR.pclaim issues 0.0625 i && PFR.pclaim issues 0.125 i)⟩,
            ⟨"Normal", 0.25, l3 ++ is.filter (fun i =>
              !PFR.pclaim issues 0.0625 i && !PFR.pclaim issues 0.125 i
                && PFR.pclaim issues 0.25 i)⟩,
            ⟨"Minor", 1, l4 ++ is.filter (fun i =>
              !PFR.pclaim issues 0.0625 i && !PFR.pclaim issues 0.125 i
                && !PFR.pclaim issues 0.25 i)⟩] := by
  intro is
  induction is with
  | nil =>
    intro _ l1 l2 l3 l4
    simp only [List.foldlM_nil, List.filter_nil, List.append_nil]
    rfl
  | cons i is ih =>
    intro hmem l1 l2 l3 l4
    have hi : i ∈ issues := hmem i (by simp)
    have h4 : PFR.pclaim issues 1 i = true := pfr_one_claims issues i hi
    have hmem' : ∀ x ∈ is, x ∈ issues := fun x hx => hmem x (by simp [hx])
    rw [List.foldlM_cons]
    cases hc1 : PFR.pclaim issues 0.0625 i with
    | true =>
      have hstep : PFR.add_issue [⟨"Critical", 0.0625, l1⟩, ⟨"Major", 0.125, l2⟩,
          ⟨"Normal", 0.25, l3⟩, ⟨"Minor", 1, l4⟩] i issues
          = Except.ok [⟨"Critical", 0.0625, l1 ++ [i]⟩, ⟨"Major", 0.125, l2⟩,
            ⟨"Normal", 0.25, l3⟩, ⟨"Minor", 1, l4⟩] := by
        simp [PFR.add_issue, PFR.Block.claims, hc1]
      rw [hstep, except_ok_bind, ih hmem' (l1 ++ [i]) l2 l3 l4]
      simp [List.filter_cons, hc1]
    | false =>
      cases hc2 : PFR.pclaim issues 0.125 i with
      | true =>
        have hstep : PFR.add_issue [⟨"Critical", 0.0625, l1⟩, ⟨"Major", 0.125, l2⟩,
            ⟨"Normal", 0.25, l3⟩, ⟨"Minor", 1, l4⟩] i issues
            = Except.ok [⟨"Critical", 0.0625, l1⟩, ⟨"Major", 0.125, l2 ++ [i]⟩,
              ⟨"Normal", 0.25, l3⟩, ⟨"Minor", 1, l4⟩] := by
          simp [PFR.add_issue, PFR.Block.claims, hc1, hc2, Except.map]
        rw [hstep, except_ok_bind, ih hmem' l1 (l2 ++ [i]) l3 l4]
        simp [List.filter_cons, hc1, hc2]
      | false =>
        cases hc3 : PFR.pclaim issues 0.25 i with
        | true =>
          have hstep : PFR.add_issue [⟨"Critical", 0.0625, l1⟩, ⟨"Major", 0.125, l2⟩,
              ⟨"Normal", 0.25, l3⟩, ⟨"Minor", 1, l4⟩] i issues
              = Except.ok [⟨"Critical", 0.0625, l1⟩, ⟨"Major", 0.125, l2⟩,
                ⟨"Normal", 0.25, l3 ++ [i]⟩, ⟨"Minor", 1, l4⟩] := by
            simp [PFR.add_issue, PFR.Block.claims, hc1, hc2, hc3, Except.map]
          rw [hstep, except_ok_bind, ih hmem' l1 l2 (l3 ++ [i]) l4]
          simp [List.filter_cons, hc1, hc2, hc3]
        | false =>
          have hstep : PFR.add_issue [⟨"Critical", 0.0625, l1⟩, ⟨"Major", 0.125, l2⟩,
              ⟨"Normal", 0.25, l3⟩, ⟨"Minor", 1, l4⟩] i issues
              = Except.ok [⟨"Critical", 0.0625, l1⟩, ⟨"Major", 0.125, l2⟩,
                ⟨"Normal", 0.25, l3⟩, ⟨"Minor", 1, l4 ++ [i]⟩] := by
            simp [PFR.add_issue, PFR.Block.claims, hc1, hc2, hc3, h4, Except.map]
          rw [hstep, except_ok_bind, ih hmem' l1 l2 l3 (l4 ++ [i])]
          simp [List.filter_cons, hc1, hc2, hc3]

/-- C10: the catch-all error branch of `add_issue` is unreachable — the Minor
block (threshold 1) claims every issue of the input, so `Blocks.__init__`
always succeeds. -/
theorem c10_catch_all_unreachable :
    (∀ (issues : List Issue) (i : Issue), i ∈ issues →
      PFR.Block.claims ⟨"Minor", 1, []⟩ i issues = true) ∧
    (∀ issues : List Issue, ∃ bs, PFR.buildBlocks issues = Except.ok bs) := by
  constructor
  · intro issues i h
    exact pfr_one_claims issues i h
  · intro issues
    have h := pfr_build_spec issues issues (fun _ h => h) [] [] [] []
    exact ⟨_, by unfold PFR.buildBlocks PFR.initBlocks; exact h⟩

/-- Witness for C10 at a concrete input. -/
theorem c10_catch_all_unreachable_w :
    cxChild ∈ [cxChild] ∧
      PFR.Block.claims ⟨"Minor", 1, []⟩ cxChild [cxChild] = true ∧
      ∃ bs, PFR.buildBlocks [cxChild] = Except.ok bs :=
  ⟨by decide, c10_catch_all_unreachable.1 [cxChild] cxChild (by decide),
    c10_catch_all_unreachable.2 [cxChild]⟩

/-- C6: the percentile tiers of `check_priority_from_rank`.  The item at
0-based position `j` of `n` rank-ordered items gets Critical when
`j/n ≤ 0.0625`, else Major when `j/n ≤ 0.125`, else Normal when `j/n ≤ 0.25`,
else Minor (a percentile exactly on a boundary lands in the stricter tier,
since the comparisons are `≤`); concretely with 10 items, positions 0,1,2 get
Critical, Major, Normal and positions 3-9 get Minor. -/
theorem c6_percentile_tiers :
    (∀ issues : List Issue, issues.Nodup → ∀ (j : Nat) (hj : j < issues.length),
      PFR.assigned_priority issues (issues.get ⟨j, hj⟩)
        = some (if (j : ℚ) / (issues.length : ℚ) ≤ 0.0625 then "Critical"
          else if (j : ℚ) / (issues.length : ℚ) ≤ 0.125 then "Major"
          else if (j : ℚ) / (issues.length : ℚ) ≤ 0.25 then "Normal"
          else "Minor")) ∧
    (∀ issues : List Issue, issues.Nodup → ∀ h10 : issues.length = 10,
      PFR.assigned_priority issues (issues.get ⟨0, by omega⟩) = some "Critical" ∧
      PFR.assigned_priority issues (issues.get ⟨1, by omega⟩) = some "Major" ∧
      PFR.assigned_priority issues (issues.get ⟨2, by omega⟩) = some "Normal" ∧
      ∀ (j : Nat) (hj3 : 3 ≤ j) (hj : j < 10),
        PFR.assigned_priority issues (issues.get ⟨j, by omega⟩) = some "Minor") := by
  have main : ∀ issues : List Issue, issues.Nodup → ∀ (j : Nat) (hj : j < issues.length),
      PFR.assigned_priority issues (issues.get ⟨j, hj⟩)
        = some (if (j : ℚ) / (issues.length : ℚ) ≤ 0.0625 then "Critical"
          else if (j : ℚ) / (issues.length : ℚ) ≤ 0.125 then "Major"
          else if (j : ℚ) / (issues.length : ℚ) ≤ 0.25 then "Normal"
          else "Minor") := by
    intro issues hnd j hj
    have hne : issues ≠ [] := by
      intro h
      rw [h] at hj
      simp at hj
    simp only [List.get_eq_getElem]
    have hmem : issues[j] ∈ issues := List.getElem_mem hj
    have hidx : issues.indexOf issues[j] = j := List.indexOf_getElem hnd j hj
    have hpc : ∀ t : ℚ, PFR.pclaim issues t issues[j]
        = decide ((j : ℚ) / (issues.length : ℚ) ≤ t) := by
      intro t
      simp only [PFR.pclaim, if_neg hne, hidx]
    have hbuild : PFR.buildBlocks issues = Except.ok
        [⟨"Critical", 0.0625, issues.filter (fun i => PFR.pclaim issues 0.0625 i)⟩,
          ⟨"Major", 0.125, issues.filter (fun i =>
            !PFR.pclaim issues 0.0625 i && PFR.pclaim issues 0.125 i)⟩,
          ⟨"Normal", 0.25, issues.filter (fun i =>
            !PFR.pclaim issues 0.0625 i && !PFR.pclaim issues 0.125 i
              && PFR.pclaim issues 0.25 i)⟩,
          ⟨"Minor", 1, issues.filter (fun i =>
            !PFR.pclaim issues 0.0625 i && !PFR.pclaim issues 0.125 i
              && !PFR.pclaim issues 0.25 i)⟩] := by
      have h := pfr_build_spec issues issues (fun _ h => h) [] [] [] []
      simp only [List.nil_append] at h
      unfold PFR.buildBlocks PFR.initBlocks
      exact h
    simp only [PFR.assigned_priority, hbuild]
    by_cases h1 : (j : ℚ) / (issues.length : ℚ) ≤ 0.0625
    · have hc1 : PFR.pclaim issues 0.0625 issues[j] = true := by
        rw [hpc]
        exact decide_eq_true h1
      rw [if_pos h1]
      simp [List.find?, List.mem_filter, hmem, hc1]
    · have hc1 : PFR.pclaim issues 0.0625 issues[j] = false := by
        rw [hpc]
        exact decide_eq_false h1
      rw [if_neg h1]
      by_cases h2 : (j : ℚ) / (issues.length : ℚ) ≤ 0.125
      · have hc2 : PFR.pclaim issues 0.125 issues[j] = true := by
          rw [hpc]
          exact decide_eq_true h2
        rw [if_pos h2]
        simp [List.find?, List.mem_filter, hmem, hc1, hc2]
      · have hc2 : PFR.pclaim issues 0.125 issues[j] = false := by
          rw [hpc]
          exact decide_eq_false h2
        rw [if_neg h2]
        by_cases h3 : (j : ℚ) / (issues.length : ℚ) ≤ 0.25
        · have hc3 : PFR.pclaim issues 0.25 issues[j] = true := by
            rw [hpc]
            exact decide_eq_true h3
          rw [if_pos h3]
          simp [List.find?, List.mem_filter, hmem, hc1, hc2, hc3]
        · have hc3 : PFR.pclaim issues 0.25 issues[j] = false := by
            rw [hpc]
            exact decide_eq_false h3
          rw [if_neg h3]
          simp [List.find?, List.mem_filter, hmem, hc1, hc2, hc3]
  refine ⟨main, ?_⟩
  intro issues hnd h10
  refine ⟨?_, ?_, ?_, ?_⟩
  · rw [main issues hnd 0 (by omega), h10]
    norm_num
  · rw [main issues hnd 1 (by omega), h10]
    norm_num
  · rw [main issues hnd 2 (by omega), h10]
    norm_num
  · intro j hj3 hj
    rw [main issues hnd j (by omega), h10]
    have hgt : ¬ ((j : ℚ) / (10 : ℚ) ≤ 0.25) := by
      rw [not_le, lt_div_iff₀ (by norm_num)]
      have : (3 : ℚ) ≤ (j : ℚ) := by exact_mod_cast hj3
      nlinarith
    have hgt2 : ¬ ((j : ℚ) / (10 : ℚ) ≤ 0.125) := by
      intro hcon
      exact hgt (hcon.trans (by norm_num))
    have hgt1 : ¬ ((j : ℚ) / (10 : ℚ) ≤ 0.0625) := by
      intro hcon
      exact hgt (hcon.trans (by norm_num))
    rw [if_neg (by exact_mod_cast hgt1), if_neg (by exact_mod_cast hgt2),
      if_neg (by exact_mod_cast hgt)]

/-- Witness for C6 on ten concrete rank-ordered issues. -/
theorem c6_percentile_tiers_w :
    tenIssues.Nodup ∧ tenIssues.length = 10 ∧
      PFR.assigned_priority tenIssues (tenIssues.get ⟨0, by decide⟩) = some "Critical" ∧
      PFR.assigned_priority tenIssues (tenIssues.get ⟨1, by decide⟩) = some "Major" ∧
      PFR.assigned_priority tenIssues (tenIssues.get ⟨2, by decide⟩) = some "Normal" ∧
      PFR.assigned_priority tenIssues (tenIssues.get ⟨3, by decide⟩) = some "Minor" := by
  have h := c6_percentile_tiers.2 tenIssues (by decide) (by decide)
  exact ⟨by decide, by decide, h.1, h.2.1, h.2.2.1, h.2.2.2 3 (by omega) (by omega)⟩

/-- C8: an item matched by the manual-override predicate lands in the inert
block and never in the due-date-urgent block, even when its due date is inside
the urgency horizon. -/
theorem c8_manual_override_inert (ov : Issue → Bool) (h : Nat) (issues : List Issue)
    (i : Issue) (hmem : i ∈ issues) (hov : ov i = true) :
    i ∈ MO.blockOf ov h issues MO.BlockKind.inert ∧
      i ∉ MO.blockOf ov h issues MO.BlockKind.due := by
  constructor
  · obtain ⟨j, hj, hget⟩ := List.getElem_of_mem hmem
    have henum : (j, i) ∈ issues.enum := by
      rw [List.mem_enum_iff_getElem?]
      simp [List.getElem?_eq_getElem hj, hget]
    refine List.mem_map.mpr ⟨(j, i), ?_, rfl⟩
    refine List.mem_filter.mpr ⟨henum, ?_⟩
    simp [MO.classify, hov]
  · intro hdue
    obtain ⟨pr, hpr, hsnd⟩ := List.mem_map.mp hdue
    have hcl := List.of_mem_filter hpr
    rw [hsnd] at hcl
    simp only [MO.classify, hov, if_true, decide_eq_true_eq] at hcl
    cases hcl

/-- Witness for C8: the KONFLUX-3420 regression input — an override matching on
component "RPM Build" forces the issue into the inert block although its due
date (60 days) is within the 120-day horizon. -/
theorem c8_manual_override_inert_w :
    moIssue ∈ ([moIssue] : List Issue) ∧
      (fun i => i.components.contains "RPM Build") moIssue = true ∧
      moIssue ∈ MO.blockOf (fun i => i.components.contains "RPM Build") 120 [moIssue]
        MO.BlockKind.inert ∧
      moIssue ∉ MO.blockOf (fun i => i.components.contains "RPM Build") 120 [moIssue]
        MO.BlockKind.due := by
  have h := c8_manual_override_inert (fun i => i.components.contains "RPM Build") 120
    [moIssue] moIssue (by decide) (by decide)
  exact ⟨by decide, by decide, h.1, h.2⟩

/-- C9: the claim is right and the code is wrong.  `FixVersionBlock.yield_issues`
reads `self.issues[0]` with no emptiness guard (unlike its time-sensitive
twin), so whenever nothing claims the always-pre-existing fix-version block —
already on the empty input — `get_issues` raises `IndexError` instead of
returning a result: the pipeline evaluates to `none` exactly there. -/
theorem c9_fixversion_empty_block_crash :
    FV.pipeline [] = none ∧ FV.pipeline [cxChild] = none ∧
      (∀ issues : List Issue, issues.filter FV.fixversion_claims = [] →
        FV.pipeline issues = none) := by
  refine ⟨by decide, by decide, ?_⟩
  intro issues hnone
  have hall : ∀ i ∈ issues, FV.fixversion_claims i = false := by
    intro i hi
    have := List.filter_eq_nil_iff.mp hnone i hi
    simpa using this
  have hbuild : ∃ rest, FV.buildBlocks issues = (⟨true, []⟩ : FV.Block) :: rest := by
    suffices h : ∀ (is : List Issue) (acc : List FV.Block),
        (∀ i ∈ is, FV.fixversion_claims i = false) →
        ∃ rest, is.foldl FV.add_issue ((⟨true, []⟩ : FV.Block) :: acc)
          = (⟨true, []⟩ : FV.Block) :: rest by
      exact h issues [] hall
    intro is
    induction is with
    | nil => intro acc _; exact ⟨acc, rfl⟩
    | cons i is ih =>
      intro acc hall2
      have hstep : FV.add_issue ((⟨true, []⟩ : FV.Block) :: acc) i
          = (⟨true, []⟩ : FV.Block) :: FV.add_issue acc i := by
        simp [FV.add_issue, FV.Block.claims, hall2 i (by simp)]
      rw [List.foldl_cons, hstep]
      exact ih (FV.add_issue acc i) (fun x hx => hall2 x (by simp [hx]))
  obtain ⟨rest, hb⟩ := hbuild
  unfold FV.pipeline
  rw [hb]
  have hsort : FV.sort ((⟨true, []⟩ : FV.Block) :: rest)
      = (⟨true, []⟩ : FV.Block) :: (rest.filter (fun b => b.fv)
          ++ (((⟨true, []⟩ : FV.Block) :: rest).filter (fun b => !b.fv))) := by
    unfold FV.sort
    rw [List.filter_cons_of_pos (by rfl)]
    rfl
  rw [hsort]
  rfl

theorem mem_insertAfter (l : List Issue) (a i x : Issue) :
    x ∈ insertAfter l a i → x = i ∨ x ∈ l := by
  induction l with
  | nil => intro h; cases h
  | cons y ys ih =>
    simp only [insertAfter]
    split
    · intro h
      rcases List.mem_cons.mp h with h | h
      · exact Or.inr (by simp [h])
      · rcases List.mem_cons.mp h with h | h
        · exact Or.inl h
        · exact Or.inr (by simp [h])
    · intro h
      rcases List.mem_cons.mp h with h | h
      · exact Or.inr (by simp [h])
      · rcases ih h with h | h
        · exact Or.inl h
        · exact Or.inr (by simp [h])

theorem nodup_insertAfter (l : List Issue) (a i : Issue)
    (hnd : l.Nodup) (hi : i ∉ l) : (insertAfter l a i).Nodup := by
  induction l with
  | nil => simp [insertAfter]
  | cons y ys ih =>
    rcases List.pairwise_cons.mp hnd with ⟨hy, hys⟩
    simp only [insertAfter]
    split
    · refine List.pairwise_cons.mpr ⟨?_, List.pairwise_cons.mpr ⟨?_, hys⟩⟩
      · intro z hz
        rcases List.mem_cons.mp hz with hz | hz
        · subst hz
          intro hcon
          apply hi
          rw [← hcon]
          exact List.mem_cons_self y ys
        · exact hy z hz
      · intro z hz
        intro hcon
        apply hi
        refine List.mem_cons_of_mem y ?_
        rw [hcon]
        exact hz
    · refine List.pairwise_cons.mpr ⟨?_, ih hys (fun hc => hi (by simp [hc]))⟩
      intro z hz
      rcases mem_insertAfter ys a i z hz with hz | hz
      · subst hz
        intro hcon
        apply hi
        rw [← hcon]
        exact List.mem_cons_self y ys
      · exact hy z hz

theorem filter_insertAfter (p : Issue → Bool) (l : List Issue) (a i : Issue)
    (hpa : p a = true) (hpi : p i = true) :
    (insertAfter l a i).filter p = insertAfter (l.filter p) a i := by
  induction l with
  | nil => simp [insertAfter]
  | cons y ys ih =>
    simp only [insertAfter]
    split
    · next hy =>
      subst hy
      rw [List.filter_cons_of_pos hpa, List.filter_cons_of_pos hpi,
        List.filter_cons_of_pos hpa]
      have hins : insertAfter (y :: List.filter p ys) y i = y :: i :: List.filter p ys := by
        simp [insertAfter]
      rw [hins]
    · next hy =>
      cases hpy : p y with
      | true =>
        rw [List.filter_cons_of_pos hpy, List.filter_cons_of_pos hpy]
        simp only [insertAfter, if_neg hy]
        rw [ih]
      | false =>
        rw [List.filter_cons_of_neg (by simp [hpy]), List.filter_cons_of_neg (by simp [hpy])]
        exact ih

theorem insertAfter_append_eq (F1 F2 : List Issue) (a i : Issue) (h : a ∉ F1) :
    insertAfter (F1 ++ a :: F2) a i = F1 ++ a :: i :: F2 := by
  induction F1 with
  | nil => simp [insertAfter]
  | cons x xs ih =>
    have hxa : ¬ (x = a) := by
      intro hc
      exact h (by simp [hc])
    show insertAfter (x :: (xs ++ a :: F2)) a i = x :: (xs ++ a :: i :: F2)
    simp only [insertAfter, if_neg hxa]
    exact congrArg _ (ih (fun hc => h (by simp [hc])))

/-- The heart of the emitter contract: applying the chain of "move `next`
directly after `prev`" operations threads the chain's issues, in order,
directly after the anchor's position among the untouched issues. -/
theorem chain_apply :
    ∀ (its l : List Issue) (a : Issue) (F1 F2 : List Issue),
      l.Nodup → its.Nodup → a ∉ its →
      l.filter (fun x => !decide (x ∈ its)) = F1 ++ a :: F2 → a ∉ F1 →
      (movesFor a its).foldl applyMove l = F1 ++ a :: its ++ F2 := by
  intro its
  induction its with
  | nil =>
    intro l a F1 F2 _ _ _ hfil _
    have : l.filter (fun x => !decide (x ∈ ([] : List Issue))) = l :=
      List.filter_eq_self.mpr (by simp)
    rw [this] at hfil
    simpa using hfil
  | cons i its ih =>
    intro l a F1 F2 hndl hndits hna hfil hnaF1
    rcases List.pairwise_cons.mp hndits with ⟨hi_its, hndits'⟩
    have hne_ai : a ≠ i := by
      intro hc
      exact hna (by simp [hc])
    have hna' : a ∉ its := fun hc => hna (by simp [hc])
    have hii : i ∉ its := by
      intro hc
      exact absurd rfl (hi_its i hc)
    have hF1mem : ∀ x ∈ F1, x ∉ (i :: its) := by
      intro x hx
      have hxin : x ∈ l.filter (fun x => !decide (x ∈ i :: its)) := by
        rw [hfil]
        exact List.mem_append.mpr (Or.inl hx)
      have := List.of_mem_filter hxin
      simpa using this
    have hfil1 : (applyMove l (i, a)).filter (fun x => !decide (x ∈ its))
        = (F1 ++ [a]) ++ i :: F2 := by
      show (insertAfter (l.erase i) a i).filter (fun x => !decide (x ∈ its))
          = (F1 ++ [a]) ++ i :: F2
      rw [filter_insertAfter _ _ _ _ (by simpa using hna') (by simpa using hii)]
      have h1 : (l.erase i).filter (fun x => !decide (x ∈ its))
          = l.filter (fun x => !decide (x ∈ i :: its)) := by
        rw [List.Nodup.erase_eq_filter hndl, List.filter_filter]
        refine List.filter_congr ?_
        intro x _
        by_cases h1 : x = i
        · simp [h1]
        · by_cases h2 : x ∈ its <;> simp [h1, h2]
      rw [h1, hfil, insertAfter_append_eq _ _ _ _ hnaF1]
      simp
    have hstep := ih (applyMove l (i, a)) i (F1 ++ [a]) F2
      (by
        show (insertAfter (l.erase i) a i).Nodup
        refine nodup_insertAfter _ _ _ (hndl.erase i) ?_
        intro hc
        exact absurd ((List.Nodup.mem_erase_iff hndl).mp hc).1 (by simp))
      hndits' hii hfil1
      (by
        intro hc
        rcases List.mem_append.mp hc with hc | hc
        · exact (hF1mem i hc) (by simp)
        · exact hne_ai (List.mem_singleton.mp hc).symm)
    calc (movesFor a (i :: its)).foldl applyMove l
        = (movesFor i its).foldl applyMove (applyMove l (i, a)) := rfl
      _ = (F1 ++ [a]) ++ i :: its ++ F2 := hstep
      _ = F1 ++ a :: i :: its ++ F2 := by simp

theorem firstDiff_lt :
    ∀ (os ns : List Issue) (d : Nat),
      firstDiff os ns = some d → d < os.length ∧ d < ns.length := by
  intro os
  induction os with
  | nil =>
    intro ns d h
    cases ns <;> simp [firstDiff] at h
  | cons o os ih =>
    intro ns d h
    cases ns with
    | nil => simp [firstDiff] at h
    | cons n ns =>
      simp only [firstDiff] at h
      by_cases hno : n = o
      · rw [if_pos hno] at h
        obtain ⟨d', hd', hsum⟩ := Option.map_eq_some'.mp h
        have := ih ns d' hd'
        simp only [List.length_cons]
        omega
      · rw [if_neg hno] at h
        injection h with h
        subst h
        simp

theorem firstDiff_take :
    ∀ (os ns : List Issue) (d : Nat),
      firstDiff os ns = some d → os.take d = ns.take d := by
  intro os
  induction os with
  | nil =>
    intro ns d h
    cases ns <;> simp [firstDiff] at h
  | cons o os ih =>
    intro ns d h
    cases ns with
    | nil => simp [firstDiff] at h
    | cons n ns =>
      simp only [firstDiff] at h
      by_cases hno : n = o
      · rw [if_pos hno] at h
        obtain ⟨d', hd', hsum⟩ := Option.map_eq_some'.mp h
        subst hno
        rw [← hsum]
        simp only [List.take_succ_cons]
        rw [ih ns d' hd']
      · rw [if_neg hno] at h
        injection h with h
        subst h
        rfl

theorem firstDiff_none_eq :
    ∀ (os ns : List Issue), os.length = ns.length → firstDiff os ns = none → ns = os := by
  intro os
  induction os with
  | nil =>
    intro ns hlen _
    cases ns with
    | nil => rfl
    | cons n ns => simp at hlen
  | cons o os ih =>
    intro ns hlen h
    cases ns with
    | nil => simp at hlen
    | cons n ns =>
      simp only [firstDiff] at h
      by_cases hno : n = o
      · rw [if_pos hno] at h
        have := ih ns (by simpa using hlen) (by
          cases hfd : firstDiff os ns with
          | none => rfl
          | some d => rw [hfd] at h; simp at h)
        rw [hno, this]
      · rw [if_neg hno] at h
        cases h

theorem set_rank_go_true :
    ∀ (ns os : List Issue) (p : Issue), os.length = ns.length →
      set_rank_go (some p) true os ns = movesFor p ns := by
  intro ns
  induction ns with
  | nil =>
    intro os p hlen
    have : os = [] := List.length_eq_zero.mp (by simpa using hlen)
    subst this
    rfl
  | cons n ns ih =>
    intro os p hlen
    cases os with
    | nil => simp at hlen
    | cons o os =>
      simp only [set_rank_go, ite_self]
      rw [ih os n (by simpa using hlen)]
      rfl

theorem set_rank_go_false :
    ∀ (d : Nat) (ns os : List Issue) (p : Issue), os.length = ns.length →
      firstDiff os ns = some d →
      ∀ a its, (p :: ns).drop d = a :: its →
      set_rank_go (some p) false os ns = movesFor a its := by
  intro d
  induction d with
  | zero =>
    intro ns os p hlen hd a its hdrop
    cases os with
    | nil => cases ns <;> simp [firstDiff] at hd
    | cons o os =>
      cases ns with
      | nil => simp [firstDiff] at hd
      | cons n ns =>
        simp only [firstDiff] at hd
        by_cases hno : n = o
        · rw [if_pos hno] at hd
          obtain ⟨d', _, hsum⟩ := Option.map_eq_some'.mp hd
          omega
        · simp only [List.drop_zero] at hdrop
          injection hdrop with h1 h2
          subst h1
          subst h2
          simp only [set_rank_go, if_pos hno, List.cons_append, List.nil_append]
          rw [set_rank_go_true ns os n (by simpa using hlen)]
          rfl
  | succ d ih =>
    intro ns os p hlen hd a its hdrop
    cases os with
    | nil => cases ns <;> simp [firstDiff] at hd
    | cons o os =>
      cases ns with
      | nil => simp [firstDiff] at hd
      | cons n ns =>
        simp only [firstDiff] at hd
        by_cases hno : n = o
        · rw [if_pos hno] at hd
          obtain ⟨d', hfd', hsum⟩ := Option.map_eq_some'.mp hd
          have hdd : d' = d := by omega
          rw [hdd] at hfd'
          have hrerank : (if n ≠ o then true else false) = false := by
            simp [hno]
          simp only [set_rank_go, hrerank]
          have hdrop' : (n :: ns).drop d = a :: its := by
            simpa using hdrop
          rw [ih ns os n (by simpa using hlen) hfd' a its hdrop']
          rfl
        · rw [if_neg hno] at hd
          injection hd with hd
          omega

theorem zip_movesFor :
    ∀ (its : List Issue) (a : Issue),
      ((a :: its).zip its).map (fun pr => (pr.2, pr.1)) = movesFor a its := by
  intro its
  induction its with
  | nil => intro a; rfl
  | cons i its ih =>
    intro a
    simp only [List.zip_cons_cons, List.map_cons, movesFor]
    rw [ih i]

theorem set_rank_movesFor (oldR newR : List Issue) (hlen : oldR.length = newR.length)
    (d : Nat) (hd : firstDiff oldR newR = some d) :
    ∀ a its, newR.drop (max d 1 - 1) = a :: its →
      set_rank oldR newR = movesFor a its := by
  intro a its hdrop
  cases oldR with
  | nil => cases newR <;> simp [firstDiff] at hd
  | cons o os =>
    cases newR with
    | nil => simp [firstDiff] at hd
    | cons n ns =>
      simp only [firstDiff] at hd
      by_cases hno : n = o
      · rw [if_pos hno] at hd
        obtain ⟨d', hfd', hsum⟩ := Option.map_eq_some'.mp hd
        have hrerank : (if n ≠ o then true else false) = false := by
          simp [hno]
        show set_rank_go none false (o :: os) (n :: ns) = movesFor a its
        simp only [set_rank_go, hrerank, List.nil_append]
        have hdrop' : (n :: ns).drop d' = a :: its := by
          have hm : max d 1 - 1 = d' := by omega
          rw [hm] at hdrop
          cases hdd : d' with
          | zero =>
            subst hdd
            simpa using hdrop
          | succ k =>
            subst hdd
            simpa using hdrop
        exact set_rank_go_false d' ns os n (by simpa using hlen) hfd' a its hdrop'
      · rw [if_neg hno] at hd
        injection hd with hd
        subst hd
        rw [show max 0 1 - 1 = 0 from rfl] at hdrop
        have hdrop0 : (n :: ns) = a :: its := by simpa using hdrop
        injection hdrop0 with h1 h2
        subst h1
        subst h2
        show set_rank_go none false (o :: os) (n :: ns) = movesFor n ns
        simp only [set_rank_go, if_pos hno, List.nil_append]
        exact set_rank_go_true ns os n (by simpa using hlen)

/-- Up to the first difference the old ranking coincides with the new one, and
from there on the old ranking's remaining issues are exactly the chain the
emitter moves: filtering them away from the old ranking leaves the settled
prefix of the new ranking. -/
theorem old_filter_take (oldR newR : List Issue) (hperm : List.Perm newR oldR)
    (hnd : newR.Nodup) (d : Nat) (hd : firstDiff oldR newR = some d) :
    oldR.filter (fun x => !decide (x ∈ newR.drop (max d 1))) = newR.take (max d 1) := by
  rcases Nat.eq_zero_or_pos d with hd0 | hdpos
  · subst hd0
    rw [show max 0 1 = 1 from rfl]
    obtain ⟨-, hlt⟩ := firstDiff_lt oldR newR 0 hd
    cases newR with
    | nil => simp at hlt
    | cons n ns =>
      rcases List.pairwise_cons.mp hnd with ⟨hn, hns⟩
      have hnotin : n ∉ ns := by
        intro hc
        exact absurd rfl (hn n hc)
      rw [show (n :: ns).drop 1 = ns from rfl, show (n :: ns).take 1 = [n] from rfl]
      have hcongr : oldR.filter (fun x => !decide (x ∈ ns))
          = oldR.filter (fun x => decide (x = n)) := by
        refine List.filter_congr ?_
        intro x hx
        have hxnew : x ∈ n :: ns := hperm.mem_iff.mpr hx
        rcases List.mem_cons.mp hxnew with hxz | hxz
        · simp [hxz, hnotin]
        · have hxn : x ≠ n := by
            intro hc
            rw [hc] at hxz
            exact hnotin hxz
          simp [hxz, hxn]
      rw [hcongr]
      have hcount : (oldR.filter (fun x => decide (x = n))).length = 1 := by
        rw [← List.countP_eq_length_filter]
        have h1 : oldR.countP (fun x => decide (x = n)) = oldR.count n := rfl
        rw [h1, ← hperm.count_eq, List.count_cons_self, List.count_eq_zero.mpr hnotin]
      obtain ⟨x, hx⟩ := List.length_eq_one.mp hcount
      have hxn : x = n := by
        have hxmem : x ∈ oldR.filter (fun z => decide (z = n)) := by
          rw [hx]
          simp
        simpa using List.of_mem_filter hxmem
      rw [hx, hxn]
  · have hm : max d 1 = d := Nat.max_eq_left hdpos
    rw [hm]
    have htake := firstDiff_take oldR newR d hd
    have hpermdrop : List.Perm (oldR.drop d) (newR.drop d) := by
      have h1 : List.Perm (newR.take d ++ newR.drop d) (oldR.take d ++ oldR.drop d) := by
        rw [List.take_append_drop, List.take_append_drop]
        exact hperm
      rw [← htake] at h1
      exact ((List.perm_append_left_iff _).mp h1).symm
    have hdisj : ∀ x ∈ newR.take d, x ∉ newR.drop d := by
      have hnd' := hnd
      rw [← List.take_append_drop d newR] at hnd'
      exact fun x hx hx' => (List.nodup_append.mp hnd').2.2 hx hx'
    conv_lhs => rw [(List.take_append_drop d oldR).symm]
    rw [List.filter_append]
    have hfirst : (oldR.take d).filter (fun x => !decide (x ∈ newR.drop d)) = newR.take d := by
      rw [htake]
      refine List.filter_eq_self.mpr ?_
      intro x hx
      simpa using hdisj x hx
    have hsecond : (oldR.drop d).filter (fun x => !decide (x ∈ newR.drop d)) = [] := by
      refine List.filter_eq_nil_iff.mpr ?_
      intro x hx
      have hxmem : x ∈ newR.drop d := hpermdrop.mem_iff.mp hx
      simp [hxmem]
    rw [hfirst, hsecond, List.append_nil]

/-- C3: the diff/move emitter contract.  With `d` the first index where the
rankings differ and `m = max d 1`: no move is emitted before index `m` and from
there on exactly one move per index, placing `newOrder[i]` directly after
`newOrder[i-1]` (the pairs of consecutive `newOrder` entries from `m-1` on);
zero moves are emitted when there is no difference; and applying the emitted
moves in order to the old ranking realizes the new ranking exactly.  The input
rankings are permutations of each other and item identities are unique within
a run (spec §3), whence the `Nodup` hypothesis. -/
theorem c3_move_emitter (oldR newR : List Issue)
    (hperm : List.Perm newR oldR) (hnd : newR.Nodup) :
    (firstDiff oldR newR = none → set_rank oldR newR = []) ∧
    (∀ d, firstDiff oldR newR = some d →
      set_rank oldR newR
        = ((newR.drop (max d 1 - 1)).zip (newR.drop (max d 1))).map (fun pr => (pr.2, pr.1))) ∧
    (set_rank oldR newR).foldl applyMove oldR = newR := by
  have hlen : oldR.length = newR.length := hperm.length_eq.symm
  have hkey : ∀ d, firstDiff oldR newR = some d →
      ∃ hm1 : max d 1 - 1 < newR.length,
        newR.drop (max d 1 - 1) = newR[max d 1 - 1] :: newR.drop (max d 1) := by
    intro d hd
    have hlt := (firstDiff_lt oldR newR d hd).2
    have h2 : max d 1 ≤ d + 1 := Nat.max_le.mpr ⟨by omega, by omega⟩
    have h3 : 1 ≤ max d 1 := Nat.le_max_right d 1
    have hm1 : max d 1 - 1 < newR.length := by omega
    refine ⟨hm1, ?_⟩
    rw [List.drop_eq_getElem_cons hm1, Nat.sub_add_cancel h3]
  refine ⟨?_, ?_, ?_⟩
  · intro h
    rw [firstDiff_none_eq oldR newR hlen h]
    exact set_rank_self oldR
  · intro d hd
    obtain ⟨hm1, hdrop⟩ := hkey d hd
    rw [set_rank_movesFor oldR newR hlen d hd _ _ hdrop, hdrop, zip_movesFor]
  · cases hfd : firstDiff oldR newR with
    | none =>
      rw [firstDiff_none_eq oldR newR hlen hfd, set_rank_self]
      rfl
    | some d =>
      obtain ⟨hm1, hdrop⟩ := hkey d hfd
      rw [set_rank_movesFor oldR newR hlen d hfd _ _ hdrop]
      have hfl := old_filter_take oldR newR hperm hnd d hfd
      have h3 : 1 ≤ max d 1 := Nat.le_max_right d 1
      have htm : newR.take (max d 1) = newR.take (max d 1 - 1) ++ [newR[max d 1 - 1]] := by
        conv_lhs => rw [show max d 1 = (max d 1 - 1) + 1 from (Nat.sub_add_cancel h3).symm]
        rw [List.take_succ, List.getElem?_eq_getElem hm1]
        rfl
      have hnddrop : (newR[max d 1 - 1] :: newR.drop (max d 1)).Nodup := by
        rw [← hdrop]
        exact List.Nodup.sublist (List.drop_sublist _ _) hnd
      rcases List.pairwise_cons.mp hnddrop with ⟨hhead, htail⟩
      have hanotin : newR[max d 1 - 1] ∉ newR.drop (max d 1) := by
        intro hc
        exact absurd rfl (hhead _ hc)
      have hdisj : ∀ x ∈ newR.take (max d 1 - 1), x ∉ newR.drop (max d 1 - 1) := by
        have hnd' := hnd
        rw [← List.take_append_drop (max d 1 - 1) newR] at hnd'
        exact fun x hx hx' => (List.nodup_append.mp hnd').2.2 hx hx'
      have hanF1 : newR[max d 1 - 1] ∉ newR.take (max d 1 - 1) := by
        intro hc
        refine hdisj _ hc ?_
        rw [hdrop]
        simp
      have hchain := chain_apply (newR.drop (max d 1)) oldR (newR[max d 1 - 1])
        (newR.take (max d 1 - 1)) []
        (hperm.nodup_iff.mp hnd) htail hanotin
        (by rw [hfl, htm]) hanF1
      rw [hchain, List.append_nil, ← hdrop, List.take_append_drop]

/-- Witness for C3: a two-element swap — permutation and uniqueness discharged
at a concrete input; the emitter's moves realize the swapped order. -/
theorem c3_move_emitter_w :
    List.Perm [exIssueB, exIssueA] [exIssueA, exIssueB] ∧
      ([exIssueB, exIssueA] : List Issue).Nodup ∧
      (set_rank [exIssueA, exIssueB] [exIssueB, exIssueA]).foldl applyMove
          [exIssueA, exIssueB]
        = [exIssueB, exIssueA] := by
  have h := c3_move_emitter [exIssueA, exIssueB] [exIssueB, exIssueA]
    (by decide) (by decide)
  exact ⟨by decide, by decide, h.2.2⟩
